import Mathlib

/-!
Verification of the bicache two-tier MFU/MRU cache.

This file gives a shallow embedding, in Lean, of the sharded cache engine:

* the scored linked list (`sll`): `HighScores` / `LowScores` selection with
  Go's `container/heap` sift-up / sift-down, modelled over lists of keys with
  a score function (`sll/sll.go`, the `MinHeap`/`MaxHeap` of the package, and
  the head-first traversal variant of `HighScores`);
* a cache shard: the key→entry map, the MRU and MFU key lists, the TTL map,
  counters, and the public operations `Set`, `SetTTL`, `Get`, `Del`,
  `FlushMru`, `FlushMfu`, `FlushAll`, plus the maintenance passes `evictTTL`
  and `promoteEvict` with `evictFromMRUTail` and `decrementTTLCount`
  (`bicache.go` and the shard methods file);
* the constructor validation performed by `New` (`bicache.go`), with Go's
  64-bit `int` arithmetic made explicit.

Modelling conventions:

* Go `uint64` counters are `Nat` with arithmetic taken `% 2^64`;
  Go `int` is `Int` with two's-complement wrapping made explicit where the
  source can wrap (`New`'s shard-count check).
* Go `interface{}` values are `Option String`; the Go `nil` interface is
  `none` (`Get` returns `nil` on a miss).
* Maps are association lists; Go map deletion is a filter, insertion of an
  absent key is a cons, and update of a present key is an in-place map.
  Go's randomized map iteration order is fixed to the association-list order
  (every property proved here about map iteration is order-insensitive).
* The scored lists hold keys, head first; node data (score, value, MRU/MFU
  state tag) lives in the entry map, mirroring the fact that in the source
  the map and the lists share the very same node.
* Wall-clock time is an `Int` parameter (`now`) passed to the operations
  that read the clock.
-/

set_option linter.unusedVariables false
set_option maxRecDepth 4096

namespace Bicache

/-! ### Go `uint64` and 64-bit `int` arithmetic -/

/-- Modulus of Go's `uint64`. -/
def U64 : Nat := 2 ^ 64

/-- Go `uint64` addition: `a + b` wrapping at `2^64`. -/
def u64add (a b : Nat) : Nat := (a + b) % U64

/-- Go `uint64` subtraction: `a - b` wrapping at `2^64` (operands already
reduced mod `2^64`). -/
def u64sub (a b : Nat) : Nat := (a % U64 + (U64 - b % U64)) % U64

/-- Two's-complement bit pattern of a Go `int` (64-bit) as a `Nat`. -/
def u64bits (x : Int) : Nat := (x % (2 ^ 64 : Int)).toNat

/-- Reinterpret a 64-bit pattern as a signed Go `int`. -/
def i64ofBits (n : Nat) : Int :=
  if n < 2 ^ 63 then (n : Int) else (n : Int) - 2 ^ 64

/-- Go 64-bit `int` subtraction, wrapping on overflow. -/
def i64sub (a b : Int) : Int := i64ofBits (u64sub (u64bits a) (u64bits b))

/-- Go `&` on 64-bit `int` operands (bitwise AND of the two's-complement
patterns). -/
def i64land (a b : Int) : Int := i64ofBits (Nat.land (u64bits a) (u64bits b))

/-! ### Association-list maps

Go maps are modelled as association lists.  `mapLookup` is map indexing,
`mapDelete` is `delete(m, k)`, `mapInsert` is `m[k] = v` (replace the value
if the key is present, otherwise add the binding), and `mapAdjust` is an
in-place mutation of the value a present key maps to (in the source this is
a write through the shared node pointer). -/

/-- Look a key up in an association list. -/
def mapLookup (m : List (String × β)) (k : String) : Option β :=
  match m with
  | [] => none
  | (k', v) :: rest => if k' = k then some v else mapLookup rest k

/-- Go `delete(m, k)`: drop every binding of `k`. -/
def mapDelete (m : List (String × β)) (k : String) : List (String × β) :=
  match m with
  | [] => []
  | (a, b) :: rest =>
    if a = k then mapDelete rest k else (a, b) :: mapDelete rest k

/-- Mutate the value bound to `k` (no-op if `k` is absent). -/
def mapAdjust (m : List (String × β)) (k : String) (f : β → β) :
    List (String × β) :=
  match m with
  | [] => []
  | (a, b) :: rest =>
    if a = k then (a, f b) :: mapAdjust rest k f
    else (a, b) :: mapAdjust rest k f

/-- Go `m[k] = v`: replace if present, otherwise add. -/
def mapInsert (m : List (String × β)) (k : String) (v : β) :
    List (String × β) :=
  if (mapLookup m k).isSome then mapAdjust m k (fun _ => v) else (k, v) :: m

/-- Key list of an association list. -/
def mapKeys (m : List (String × β)) : List String := m.map Prod.fst

/-! ### The entry map

`entry` carries the per-node data of `bicache.go`: the node's read score
(`sll.Node.Score`, a `uint64`), the stored value (`cacheData.v`), and the
tier tag (`entry.state`, `0` = MRU, `1` = MFU).  The key itself
(`cacheData.k`) is the association-list key. -/

/-- Go `interface{}` values; the `nil` interface is `none`. -/
abbrev GoVal := Option String

/-- One cache entry: score, value and tier tag. -/
structure Entry where
  score : Nat
  value : GoVal
  state : Nat
  deriving Repr, DecidableEq

/-- A cache shard (`Shard` of `bicache.go`): entry map, the two scored key
lists (head first), capacities, TTL structures and counters. -/
structure Shard where
  cacheMap : List (String × Entry)
  mru : List String
  mfu : List String
  mfuCap : Nat
  mruCap : Nat
  ttlMap : List (String × Int)
  ttlCount : Nat
  nearestExpire : Int
  noOverflow : Bool
  hits : Nat
  misses : Nat
  evictions : Nat
  overflows : Nat
  deriving Repr, DecidableEq

/-- A freshly initialized shard, as built by `New` (empty maps and lists,
`nearestExpire` set to the construction time). -/
def initShard (mfuCap mruCap : Nat) (noOverflow : Bool) (now : Int) : Shard :=
  { cacheMap := [], mru := [], mfu := [], mfuCap := mfuCap, mruCap := mruCap
    ttlMap := [], ttlCount := 0, nearestExpire := now, noOverflow := noOverflow
    hits := 0, misses := 0, evictions := 0, overflows := 0 }

/-- Score of a key, read through the entry map (a `Node.Score` read in the
source; keys outside the map never arise where this is used). -/
def scoreOf (s : Shard) (k : String) : Nat :=
  match mapLookup s.cacheMap k with
  | some e => e.score
  | none => 0

/-! ### Go's `container/heap` over a list of keys

The sll package keeps `*Node` heaps (`MinHeap` / `MaxHeap` of the package);
here a heap is a `List String` indexed like the Go slice (index `0` is the
root) and the `Less` method is a `Bool`-valued parameter `lt`.  `heapUp`,
`heapDown`, `heapPushGo` and `heapPopGo` transcribe `container/heap`'s
`up`, `down`, `Push` and `Pop` (the `Pop` of the heap interface removes and
returns the last slice element, after the root was swapped there). -/

/-- Swap two positions of a list (Go `h.Swap(i, j)`); out-of-range indices
never occur at call sites. -/
def lswap (l : List String) (i j : Nat) : List String :=
  (l.set i (l.getD j "")).set j (l.getD i "")

/-- Sift-up (`container/heap`'s `up`). -/
def heapUp (lt : String → String → Bool) (l : List String) (j : Nat) :
    List String :=
  if hj : j = 0 then l
  else
    let i := (j - 1) / 2
    if lt (l.getD j "") (l.getD i "") then heapUp lt (lswap l i j) i
    else l
  termination_by j
  decreasing_by
    exact Nat.lt_of_le_of_lt (Nat.div_le_self _ 2)
      (Nat.pred_lt (by simpa using hj))

/-- Sift-down within the prefix of length `n` (`container/heap`'s `down`). -/
def heapDown (lt : String → String → Bool) (l : List String) (i n : Nat) :
    List String :=
  if hj : 2 * i + 1 < n then
    let j1 := 2 * i + 1
    let j := if j1 + 1 < n ∧ lt (l.getD (j1 + 1) "") (l.getD j1 "") then j1 + 1
             else j1
    if lt (l.getD j "") (l.getD i "") then heapDown lt (lswap l i j) j n
    else l
  else l
  termination_by n - i
  decreasing_by
    have hij : i < 2 * i + 1 := by omega
    split <;> omega

/-- `heap.Push`: append, then sift the new leaf up. -/
def heapPushGo (lt : String → String → Bool) (l : List String) (x : String) :
    List String :=
  heapUp lt (l ++ [x]) l.length

/-- `heap.Pop`: swap the root to the end, sift the new root down within the
shortened prefix, and split off the last element (the old root). -/
def heapPopGo (lt : String → String → Bool) (l : List String) :
    Option String × List String :=
  let n := l.length - 1
  let l1 := heapDown lt (lswap l 0 n) 0 n
  (l1.getLast?, l1.dropLast)

/-- `MinHeap.Less` of the sll package: compare scores with `<`. -/
def minHeapLess (sc : String → Nat) (a b : String) : Bool := sc a < sc b

/-- `MaxHeap.Less` of the sll package: compare scores with `>`. -/
def maxHeapLess (sc : String → Nat) (a b : String) : Bool := sc b < sc a

/-! ### `HighScores` / `LowScores`

`heapSelect` transcribes the bounded-heap top-k of the sll package: push the
first `k` traversed nodes, then for each further node compare against the
cached boundary score (`h.Peek()`'s score) and push/pop on a strict win.
Scores are immutable during a selection, so caching the root (as done here)
and caching its score (as in the source) coincide.  For `k = 0` the source
panics reading `Peek()` of an empty heap; only `k ≥ 1` is ever used. -/

/-- Push the first `k` traversed keys onto the heap. -/
def heapFill (lt : String → String → Bool) (l : List String) (k : Nat) :
    List String :=
  (l.take k).foldl (heapPushGo lt) []

/-- The replacement scan over the remaining traversal, with `r` the cached
root of the heap `h`. -/
def heapSelectLoop (lt : String → String → Bool) :
    List String → List String → String → List String
  | [], h, _ => h
  | x :: xs, h, r =>
    if lt r x then
      let h2 := (heapPopGo lt (heapPushGo lt h x)).2
      heapSelectLoop lt xs h2 (h2.headD "")
    else heapSelectLoop lt xs h r

/-- Bounded-heap selection of `k` elements from the traversal `l`. -/
def heapSelect (lt : String → String → Bool) (l : List String) (k : Nat) :
    List String :=
  if l.length = 0 then []
  else
    let h0 := heapFill lt l k
    heapSelectLoop lt (l.drop k) h0 (h0.headD "")

/-- Ascending sort by score.  The source's final `sort.Sort` is unstable;
any ascending reordering is a faithful model of it, and no property proved
here depends on the relative order of equal scores in the sorted output. -/
def sortAsc (sc : String → Nat) (l : List String) : List String :=
  List.insertionSort (fun a b => sc a ≤ sc b) l

/-- `Sll.HighScores` (head-toward-tail traversal variant): the bounded
min-heap selection over the list, sorted ascending by score. -/
def HighScores (sc : String → Nat) (l : List String) (k : Nat) :
    List String :=
  sortAsc sc (heapSelect (minHeapLess sc) l k)

/-- `Sll.LowScores`: the bounded max-heap selection traversing from the tail
(the reverse of the head-first list), sorted ascending by score. -/
def LowScores (sc : String → Nat) (l : List String) (k : Nat) :
    List String :=
  sortAsc sc (heapSelect (maxHeapLess sc) l.reverse k)

/-! ### Heap-order predicates

`heapEdge lt l j` says the parent of slice position `j` is not greater than
`j` (under `Less` function `lt`); `IsHeapPre` restricts to the prefix
`heapDown` works in.  `LtAsym` and `LtTrans` are the two properties of a
score comparison the heap arguments use. -/

/-- The heap-order condition at one child position. -/
def heapEdge (lt : String → String → Bool) (l : List String) (j : Nat) :
    Prop :=
  lt (l.getD j "") (l.getD ((j - 1) / 2) "") = false

/-- Heap order on the prefix of length `n`. -/
def IsHeapPre (lt : String → String → Bool) (l : List String) (n : Nat) :
    Prop :=
  ∀ j, 0 < j → j < n → heapEdge lt l j

/-- Heap order on the whole slice. -/
def IsHeap (lt : String → String → Bool) (l : List String) : Prop :=
  IsHeapPre lt l l.length

/-- A strict comparison: `a < b` rules out `b < a`. -/
def LtAsym (lt : String → String → Bool) : Prop :=
  ∀ a b, lt a b = true → lt b a = false

/-- Transitivity of the complement order (`a ≤ b` and `b ≤ c` give
`a ≤ c`, writing `x ≤ y` for `lt y x = false`). -/
def LtTrans (lt : String → String → Bool) : Prop :=
  ∀ a b c, lt b a = false → lt c b = false → lt c a = false

/-! ### The claim's reading of `HighScores`, for comparison

Modelled from the spec: "Returns the k nodes with the highest scores in
ascending score order. Ties broken by encounter order."  `specHighScores`
selects the `k` best nodes with score ties resolved by traversal position —
`tiePreferLater := false` keeps the earlier-encountered node, `true` the
later one (the sentence fixes no direction, so both readings are stated) —
and returns them sorted ascending by score, position-stable. -/

/-- The claim's `HighScores`: rank by score with ties on encounter order. -/
def specHighScores (sc : String → Nat) (l : List String) (k : Nat)
    (tiePreferLater : Bool) : List String :=
  let tagged := l.enum
  let ranked := List.insertionSort (fun p q : Nat × String =>
    sc q.2 < sc p.2 ∨ (sc p.2 = sc q.2 ∧
      (if tiePreferLater then q.1 ≤ p.1 else p.1 ≤ q.1))) tagged
  let sel := ranked.take k
  (List.insertionSort (fun p q : Nat × String =>
    sc p.2 < sc q.2 ∨ (sc p.2 = sc q.2 ∧ p.1 ≤ q.1)) sel).map Prod.snd

/-! ### Shard operations -/

/-- Increment a key's node score (`Node.Read`'s `atomic.AddUint64`). -/
def bumpScore (s : Shard) (k : String) : Shard :=
  { s with cacheMap :=
      mapAdjust s.cacheMap k (fun e => { e with score := u64add e.score 1 }) }

/-- `Bicache.Get`: on a hit return the stored value, bump the node score and
the hit counter; on a miss bump the miss counter and return Go `nil`. -/
def Get (s : Shard) (k : String) : GoVal × Shard :=
  match mapLookup s.cacheMap k with
  | some e => (e.value, { bumpScore s k with hits := u64add s.hits 1 })
  | none => (none, { s with misses := u64add s.misses 1 })

/-- `Bicache.Del`: remove the map entry, the TTL entry and the node from the
list its tier tag names (a missing key is a silent no-op). -/
def Del (s : Shard) (k : String) : Shard :=
  match mapLookup s.cacheMap k with
  | none => s
  | some e =>
    let s1 := { s with cacheMap := mapDelete s.cacheMap k
                       ttlMap := mapDelete s.ttlMap k }
    if e.state = 0 then { s1 with mru := s1.mru.erase k }
    else if e.state = 1 then { s1 with mfu := s1.mfu.erase k }
    else s1

/-- The `uint64` complement `^x`. -/
def complement64 (x : Nat) : Nat := U64 - 1 - x % U64

/-- `Shard.decrementTTLCount`: subtract `n` from the TTL counter unless that
would wrap below zero (then store `0`), and add `n` to the eviction counter.
The subtraction is performed as `AddUint64` of `^uint64(n-1)`. -/
def decrementTTLCount (s : Shard) (n : Nat) : Shard :=
  let s1 :=
    if s.ttlCount < u64sub s.ttlCount n then { s with ttlCount := 0 }
    else { s with ttlCount := u64add s.ttlCount (complement64 (u64sub n 1)) }
  { s1 with evictions := u64add s1.evictions n }

/-- One round of `Shard.evictFromMRUTail`'s loop: read the tail node, delete
its key from the entry map and the TTL map, and unlink it.  On an empty MRU
the source would dereference the sentinel's nil value; the call sites
guarantee `n` never exceeds the MRU length. -/
def evictTailOnce (s : Shard) : Shard :=
  match s.mru.getLast? with
  | none => s
  | some k =>
    { s with cacheMap := mapDelete s.cacheMap k
             ttlMap := mapDelete s.ttlMap k
             mru := s.mru.dropLast }

/-- The `n`-iteration loop of `Shard.evictFromMRUTail`. -/
def evictTailLoop (s : Shard) : Nat → Shard
  | 0 => s
  | n + 1 => evictTailLoop (evictTailOnce s) n

/-- `Shard.evictFromMRUTail`: evict `n` keys from the MRU tail, then account
the TTL'd evictions through `decrementTTLCount` and the rest through the
eviction counter. -/
def evictFromMRUTail (s : Shard) (n : Nat) : Shard :=
  let ttlStart := s.ttlMap.length
  let s1 := evictTailLoop s n
  let ttlEvicted := ttlStart - s1.ttlMap.length
  let s2 := decrementTTLCount s1 ttlEvicted
  { s2 with evictions := u64add s2.evictions (n - ttlEvicted) }

/-- MRU→MFU promotion of one node: unlink from the MRU, push onto the MFU
tail, tag the entry MFU. -/
def promoteOne (s : Shard) (k : String) : Shard :=
  { s with mru := s.mru.erase k
           mfu := s.mfu ++ [k]
           cacheMap := mapAdjust s.cacheMap k (fun e => { e with state := 1 }) }

/-- MFU→MRU demotion of one node: unlink from the MFU, push onto the MRU
head, tag the entry MRU. -/
def demoteOne (s : Shard) (k : String) : Shard :=
  { s with mfu := s.mfu.erase k
           mru := k :: s.mru
           cacheMap := mapAdjust s.cacheMap k (fun e => { e with state := 0 }) }

/-- The free-slot promotion loop of `promoteEvict` over the first
`canPromote` candidates (descending score order): stop at the first
candidate with score below 2, otherwise promote and count. -/
def freePromote (s : Shard) : List String → Shard × Nat
  | [] => (s, 0)
  | c :: rest =>
    if scoreOf s c < 2 then (s, 0)
    else
      let r := freePromote (promoteOne s c) rest
      (r.1, r.2 + 1)

/-- The inner scan of the score-promotion loop: the first index of the
low-scores list whose score is strictly below the candidate's, `none` when
the scan runs off the end (which breaks the outer loop). -/
def scanBottom (s : Shard) (cScore : Nat) : List String → Option Nat
  | [] => none
  | b :: rest =>
    if scoreOf s b < cScore then some 0
    else (scanBottom s cScore rest).map (· + 1)

/-- The score-promotion loop of `promoteEvict`: for each remaining candidate
in descending order, find the first replaceable low-score MFU node, demote
it to the MRU head, promote the candidate to the MFU tail and drop the
replaced node from the low-scores list; if a scan of a nonempty list finds
nothing the whole loop ends (an empty list merely skips the candidate, as a
Go `range` over an empty slice never reaches the break). -/
def scorePromoteLoop (s : Shard) :
    List String → List String → Nat → Shard × Nat
  | [], _, pbs => (s, pbs)
  | c :: rest, bottom, pbs =>
    if bottom.isEmpty then scorePromoteLoop s rest bottom pbs
    else
      match scanBottom s (scoreOf s c) bottom with
      | some i =>
        let m := bottom.getD i ""
        let s2 := promoteOne (demoteOne s m) c
        scorePromoteLoop s2 rest (bottom.eraseIdx i) (pbs + 1)
      | none => (s, pbs)

/-- `Shard.promoteEvict`, also reporting the free-slot promotion count and
the score-promotion count.  The descending candidate order produced by
`sort.Sort(sort.Reverse(...))` on the ascending `HighScores` result is
modelled as `List.reverse` (equal scores may be ordered differently by the
source's unstable sort; no property proved here depends on that order). -/
def promoteEvictCore (s : Shard) : Shard × Nat × Nat :=
  let mruOverflow : Int := (s.mru.length : Int) - (s.mruCap : Int)
  if mruOverflow ≤ 0 then (s, 0, 0)
  else
    let ov := mruOverflow.toNat
    if s.mfuCap = 0 then (evictFromMRUTail s ov, 0, 0)
    else
      let cands := (HighScores (scoreOf s) s.mru ov).reverse
      let mfuFree : Nat := s.mfuCap - s.mfu.length
      let canPromote := if ov ≤ mfuFree then ov else mfuFree
      let fp := freePromote s (cands.take canPromote)
      let s1 := fp.1
      let promoted := fp.2
      if promoted = ov then (s1, promoted, 0)
      else
        let rem := ov - promoted
        let bottomMFU := LowScores (scoreOf s1) s1.mfu rem
        let sp :=
          if bottomMFU.isEmpty ∨
              scoreOf s1 (cands.getD promoted "") ≤
                scoreOf s1 (bottomMFU.headD "") then
            (s1, 0)
          else scorePromoteLoop s1 (cands.drop promoted) bottomMFU 0
        let toEvict := rem - sp.2
        if 0 < toEvict then (evictFromMRUTail sp.1 toEvict, promoted, sp.2)
        else (sp.1, promoted, sp.2)

/-- `Shard.promoteEvict`. -/
def promoteEvict (s : Shard) : Shard := (promoteEvictCore s).1

/-- `Bicache.Set` without the inline maintenance call: update the value (and
move an MRU node to the head) when the key exists; otherwise reject when
no-overflow is set and the MRU is at or over capacity, else create the node
at the MRU head. -/
def SetRaw (s : Shard) (k : String) (v : GoVal) : Bool × Shard :=
  match mapLookup s.cacheMap k with
  | none =>
    if s.noOverflow ∧ s.mruCap ≤ s.mru.length then
      (false, { s with overflows := u64add s.overflows 1 })
    else
      (true, { s with cacheMap := (k, ⟨0, v, 0⟩) :: s.cacheMap
                      mru := k :: s.mru })
  | some e =>
    let s1 :=
      { s with cacheMap := mapAdjust s.cacheMap k (fun e => { e with value := v }) }
    (true, if e.state = 0 then { s1 with mru := k :: s1.mru.erase k } else s1)

/-- `Bicache.Set` with the inline `promoteEvict` of the non-auto-evict
configuration (the overflow-rejected path returns before reaching it). -/
def Set (s : Shard) (k : String) (v : GoVal) : Bool × Shard :=
  let r := SetRaw s k v
  if r.1 then (r.1, promoteEvict r.2) else r

/-- `Bicache.SetTTL` without the inline maintenance call: record the expiry
and bump the TTL counter up front, then proceed exactly as `Set`, updating
the nearest expire on the success paths only. -/
def SetTTLRaw (s : Shard) (k : String) (v : GoVal) (t now : Int) :
    Bool × Shard :=
  let expiration := now + t
  let s0 := { s with ttlMap := mapInsert s.ttlMap k expiration
                     ttlCount := u64add s.ttlCount 1 }
  let finish := fun (s1 : Shard) =>
    if expiration < s1.nearestExpire then
      { s1 with nearestExpire := expiration }
    else s1
  match mapLookup s0.cacheMap k with
  | none =>
    if s0.noOverflow ∧ s0.mruCap ≤ s0.mru.length then
      (false, { s0 with overflows := u64add s0.overflows 1 })
    else
      (true, finish { s0 with cacheMap := (k, ⟨0, v, 0⟩) :: s0.cacheMap
                              mru := k :: s0.mru })
  | some e =>
    let s1 :=
      { s0 with cacheMap := mapAdjust s0.cacheMap k (fun e => { e with value := v }) }
    (true, finish (if e.state = 0 then { s1 with mru := k :: s1.mru.erase k } else s1))

/-- `Bicache.SetTTL` with the inline `promoteEvict`. -/
def SetTTL (s : Shard) (k : String) (v : GoVal) (t now : Int) : Bool × Shard :=
  let r := SetTTLRaw s k v t now
  if r.1 then (r.1, promoteEvict r.2) else r

/-- Whether the entry map tags `k` with tier `t`. -/
def stateIs (m : List (String × Entry)) (k : String) (t : Nat) : Bool :=
  match mapLookup m k with
  | some e => e.state == t
  | none => false

/-- `Bicache.FlushMru`: delete every MRU-tagged key from the entry map and
the TTL map, and replace the MRU list with a fresh one. -/
def FlushMru (s : Shard) : Shard :=
  { s with cacheMap := s.cacheMap.filter (fun p => p.2.state ≠ 0)
           ttlMap := s.ttlMap.filter (fun p => ¬ stateIs s.cacheMap p.1 0)
           mru := [] }

/-- `Bicache.FlushMfu`: delete every MFU-tagged key from the entry map and
the TTL map, and replace the MFU list with a fresh one. -/
def FlushMfu (s : Shard) : Shard :=
  { s with cacheMap := s.cacheMap.filter (fun p => p.2.state ≠ 1)
           ttlMap := s.ttlMap.filter (fun p => ¬ stateIs s.cacheMap p.1 1)
           mfu := [] }

/-- `Bicache.FlushAll`: reset both maps, both lists and the nearest expire
(the counters and the TTL counter are left as they are). -/
def FlushAll (s : Shard) (now : Int) : Shard :=
  { s with cacheMap := [], ttlMap := [], mru := [], mfu := []
           nearestExpire := now + 2147483647 }

/-- `Shard.evictTTL`: skip when the TTL counter is zero; otherwise collect
the keys whose expiry precedes `now` and the minimum expiry of the others
(starting from `now + 2^31 - 1`), evict every collected key still present,
store the new nearest expire, and account through `decrementTTLCount`.
Returns the eviction count. -/
def evictTTL (s : Shard) (now : Int) : Shard × Nat :=
  if s.ttlCount = 0 then (s, 0)
  else
    let expired := (s.ttlMap.filter (fun p => p.2 < now)).map Prod.fst
    let nearest := (s.ttlMap.filter (fun p => ¬ p.2 < now)).foldl
      (fun acc p => if p.2 < acc then p.2 else acc) (now + 2147483647)
    let ev := expired.foldl
      (fun (acc : Shard × Nat) k =>
        match mapLookup acc.1.cacheMap k with
        | some e =>
          ({ acc.1 with
              cacheMap := mapDelete acc.1.cacheMap k
              ttlMap := mapDelete acc.1.ttlMap k
              mru := if e.state = 0 then acc.1.mru.erase k else acc.1.mru
              mfu := if e.state = 1 then acc.1.mfu.erase k else acc.1.mfu },
            acc.2 + 1)
        | none => acc)
      (s, 0)
    (decrementTTLCount { ev.1 with nearestExpire := nearest } ev.2, ev.2)

/-! ### The shard state machine

`stepShard` applies one public operation or maintenance pass.  The raw
(non-inline) set operations appear as steps of their own, with
`promoteEvict` a separate step; the inline-maintenance `Set`/`SetTTL` of the
non-auto-evict configuration are the composition of the two, so every
invariant proved over all step sequences covers both configurations. -/

/-- One public operation or maintenance pass. -/
inductive Op where
  | set (k : String) (v : GoVal)
  | setTTL (k : String) (v : GoVal) (t now : Int)
  | get (k : String)
  | del (k : String)
  | flushMru
  | flushMfu
  | flushAll (now : Int)
  | evictTTL (now : Int)
  | promoteEvict

/-- Apply one operation to a shard. -/
def stepShard (s : Shard) : Op → Shard
  | .set k v => (SetRaw s k v).2
  | .setTTL k v t now => (SetTTLRaw s k v t now).2
  | .get k => (Get s k).2
  | .del k => Del s k
  | .flushMru => FlushMru s
  | .flushMfu => FlushMfu s
  | .flushAll now => FlushAll s now
  | .evictTTL now => (Bicache.evictTTL s now).1
  | .promoteEvict => Bicache.promoteEvict s

/-- Shard states reachable from a fresh shard by any operation sequence. -/
inductive Reach : Shard → Prop where
  | init (mfuCap mruCap : Nat) (noOv : Bool) (now : Int) :
      Reach (initShard mfuCap mruCap noOv now)
  | step {s : Shard} (op : Op) : Reach s → Reach (stepShard s op)

/-- Shard states reachable by operation sequences in which no `SetTTL` was
overflow-rejected. -/
inductive ReachTTLSafe : Shard → Prop where
  | init (mfuCap mruCap : Nat) (noOv : Bool) (now : Int) :
      ReachTTLSafe (initShard mfuCap mruCap noOv now)
  | step {s : Shard} (op : Op) : ReachTTLSafe s →
      (∀ k v t now, op = .setTTL k v t now → (SetTTLRaw s k v t now).1 = true) →
      ReachTTLSafe (stepShard s op)

/-! ### Constructor validation (`New` of `bicache.go`)

Only the accept/reject behavior is modelled; the Go `int` arithmetic of the
power-of-two check is 64-bit two's complement.  `crashed` is the `make`
call with a negative length (reachable only for shard count `-2^63`, the
one negative 64-bit value whose bit pattern passes the mask check). -/

/-- The configuration fields `New` validates. -/
structure Config where
  MFUSize : Nat
  MRUSize : Nat
  ShardCount : Int
  NoOverflow : Bool

/-- Outcome of `New`. -/
inductive NewOutcome where
  | rejected
  | crashed
  | ok (shardCount : Int)
  deriving Repr, DecidableEq

/-- `bicache.New`'s validation: reject when `ShardCount & (ShardCount-1)`
is nonzero or `MRUSize` is zero, default a zero shard count to 512, then
build the shard slice (a negative length panics). -/
def New (c : Config) : NewOutcome :=
  if i64land c.ShardCount (i64sub c.ShardCount 1) ≠ 0 then .rejected
  else if c.MRUSize = 0 then .rejected
  else if (if c.ShardCount = 0 then 512 else c.ShardCount) < 0 then .crashed
  else .ok (if c.ShardCount = 0 then 512 else c.ShardCount)

/-- The spec's "shard-count is a power of two". -/
def isPow2 (n : Int) : Prop := ∃ i : Nat, n = 2 ^ i

/-- A concrete score assignment used for counterexamples: `d` scores 2,
`c` scores 0, every other key scores 1. -/
def sc5 : String → Nat := fun s => if s = "d" then 2 else if s = "c" then 0 else 1

/-- A concrete shard used for counterexamples: MRU `[a, b, c]` with scores
`5, 1, 0` over capacity 1, MFU `[m3, m4]` with scores `3, 4` at its
capacity 2. -/
def s3 : Shard :=
  { cacheMap := [("a", ⟨5, some "va", 0⟩), ("b", ⟨1, some "vb", 0⟩),
      ("c", ⟨0, some "vc", 0⟩), ("m3", ⟨3, some "v3", 1⟩),
      ("m4", ⟨4, some "v4", 1⟩)]
    mru := ["a", "b", "c"], mfu := ["m3", "m4"], mfuCap := 2, mruCap := 1
    ttlMap := [], ttlCount := 0, nearestExpire := 0, noOverflow := false
    hits := 0, misses := 0, evictions := 0, overflows := 0 }

/-- The TTL-subset invariant (spec I3): every TTL-map key is a key of the
entry map. -/
def TTLSub (s : Shard) : Prop :=
  ∀ k, (mapLookup s.ttlMap k).isSome = true →
    (mapLookup s.cacheMap k).isSome = true

/-- List well-formedness of a shard (spec I1/I2): the two lists hold no
duplicates and every list member's entry carries the matching tier tag. -/
def WF (s : Shard) : Prop :=
  s.mru.Nodup ∧ s.mfu.Nodup ∧
  (∀ x ∈ s.mru, stateIs s.cacheMap x 0 = true) ∧
  (∀ x ∈ s.mfu, stateIs s.cacheMap x 1 = true)

/-- `k` is safe from `n` tail evictions: it is outside the MRU, or an MRU
occurrence of `k` has at least `n` entries strictly behind it (and none of
them is `k` again). -/
def Safe (s : Shard) (k : String) (n : Nat) : Prop :=
  k ∉ s.mru ∨ ∃ P S, s.mru = P ++ k :: S ∧ k ∉ S ∧ n ≤ S.length

/-- The entry of `k` (as far as presence and stored value go) is the same
in `s'` as in `s`. -/
def lookPres (s s' : Shard) (k : String) : Prop :=
  (mapLookup s'.cacheMap k).map Entry.value =
    (mapLookup s.cacheMap k).map Entry.value

/-! ### Lemmas: association-list maps -/

theorem mapLookup_adjust_self (m : List (String × β)) (k : String) (f : β → β) :
    mapLookup (mapAdjust m k f) k = (mapLookup m k).map f := by
  induction m with
  | nil => rfl
  | cons p rest ih =>
    obtain ⟨a, b⟩ := p
    by_cases h : a = k <;> simp [mapAdjust, mapLookup, h, ih]

theorem mapLookup_adjust_ne (m : List (String × β)) (k k' : String) (f : β → β)
    (h : k' ≠ k) :
    mapLookup (mapAdjust m k f) k' = mapLookup m k' := by
  induction m with
  | nil => rfl
  | cons p rest ih =>
    obtain ⟨a, b⟩ := p
    by_cases hp : a = k
    · subst hp
      simp [mapAdjust, mapLookup, Ne.symm h, ih]
    · by_cases hp' : a = k' <;> simp [mapAdjust, mapLookup, hp, hp', h, ih]

theorem mapLookup_delete_self (m : List (String × β)) (k : String) :
    mapLookup (mapDelete m k) k = none := by
  induction m with
  | nil => rfl
  | cons p rest ih =>
    obtain ⟨a, b⟩ := p
    by_cases h : a = k <;> simp [mapDelete, mapLookup, h, ih]

theorem mapLookup_delete_ne (m : List (String × β)) (k k' : String)
    (h : k' ≠ k) :
    mapLookup (mapDelete m k) k' = mapLookup m k' := by
  induction m with
  | nil => rfl
  | cons p rest ih =>
    obtain ⟨a, b⟩ := p
    by_cases hp : a = k
    · subst hp
      simp [mapDelete, mapLookup, Ne.symm h, ih]
    · by_cases hp' : a = k' <;> simp [mapDelete, mapLookup, hp, hp', h, ih]

theorem mapLookup_insert_self (m : List (String × β)) (k : String) (v : β) :
    mapLookup (mapInsert m k v) k = some v := by
  unfold mapInsert
  split
  · next h =>
    rw [mapLookup_adjust_self]
    cases hm : mapLookup m k with
    | none => rw [hm] at h; simp at h
    | some w => simp
  · simp [mapLookup]

theorem mapLookup_insert_ne (m : List (String × β)) (k k' : String) (v : β)
    (h : k' ≠ k) :
    mapLookup (mapInsert m k v) k' = mapLookup m k' := by
  unfold mapInsert
  split
  · exact mapLookup_adjust_ne m k k' _ h
  · simp [mapLookup, Ne.symm h]

/-! ### Bitwise facts for the power-of-two mask check -/

theorem land_even_pred (b : Nat) (hb : 1 ≤ b) :
    Nat.land (2 * b) (2 * b - 1) = 2 * Nat.land b (b - 1) := by
  apply Nat.eq_of_testBit_eq
  intro i
  show ((2 * b) &&& (2 * b - 1)).testBit i = (2 * Nat.land b (b - 1)).testBit i
  cases i with
  | zero =>
    rw [Nat.testBit_land, Nat.testBit_zero, Nat.testBit_zero, Nat.testBit_zero]
    have h1 : 2 * b % 2 = 0 := by omega
    have h2 : 2 * Nat.land b (b - 1) % 2 = 0 := by omega
    simp [h1, h2]
  | succ i =>
    rw [Nat.testBit_land, Nat.testBit_succ, Nat.testBit_succ, Nat.testBit_succ]
    have h1 : 2 * b / 2 = b := by omega
    have h2 : (2 * b - 1) / 2 = b - 1 := by omega
    have h3 : 2 * Nat.land b (b - 1) / 2 = Nat.land b (b - 1) := by omega
    rw [h1, h2, h3, ← Nat.testBit_land]
    exact rfl

theorem land_odd_pred (b : Nat) :
    Nat.land (2 * b + 1) (2 * b) = 2 * b := by
  apply Nat.eq_of_testBit_eq
  intro i
  show ((2 * b + 1) &&& (2 * b)).testBit i = (2 * b).testBit i
  cases i with
  | zero =>
    rw [Nat.testBit_land, Nat.testBit_zero, Nat.testBit_zero]
    have h1 : 2 * b % 2 = 0 := by omega
    simp [h1]
  | succ i =>
    rw [Nat.testBit_land, Nat.testBit_succ, Nat.testBit_succ]
    have h1 : (2 * b + 1) / 2 = b := by omega
    have h2 : 2 * b / 2 = b := by omega
    rw [h1, h2, Bool.and_self]

theorem pow2_of_land_pred_zero :
    ∀ a : Nat, 1 ≤ a → Nat.land a (a - 1) = 0 → ∃ i : Nat, a = 2 ^ i := by
  intro a
  induction a using Nat.strong_induction_on with
  | _ a ih =>
    intro ha h
    rcases Nat.even_or_odd a with he | ho
    · obtain ⟨b, hb⟩ := he
      have hb2 : a = 2 * b := by omega
      subst hb2
      have hb1 : 1 ≤ b := by omega
      rw [land_even_pred b hb1] at h
      obtain ⟨i, hi⟩ := ih b (by omega) hb1 (by omega)
      exact ⟨i + 1, by rw [hi]; ring⟩
    · obtain ⟨b, hb⟩ := ho
      subst hb
      by_cases hb0 : b = 0
      · exact ⟨0, by omega⟩
      · rw [Nat.add_sub_cancel, land_odd_pred b] at h
        omega

theorem land_pred_zero_of_pow2 (i : Nat) :
    Nat.land (2 ^ i) (2 ^ i - 1) = 0 := by
  apply Nat.eq_of_testBit_eq
  intro j
  show ((2 ^ i) &&& (2 ^ i - 1)).testBit j = Nat.testBit 0 j
  rw [Nat.testBit_land, Nat.testBit_two_pow, Nat.testBit_two_pow_sub_one,
    Nat.zero_testBit]
  by_cases h : i = j <;> simp [h]

theorem testBit63_of_range {x : Nat} (h1 : 2 ^ 63 ≤ x) (h2 : x < 2 ^ 64) :
    x.testBit 63 = true := by
  rw [Nat.testBit_to_div_mod, decide_eq_true_eq]
  omega

/-! ### Claim C8: constructor validation -/

theorem ge_of_testBit63 {x : Nat} (h : x.testBit 63 = true) : 2 ^ 63 ≤ x := by
  rw [Nat.testBit_to_div_mod, decide_eq_true_eq] at h
  omega

theorem u64bits_nonneg {x : Int} (h0 : 0 ≤ x) (h1 : x < 2 ^ 64) :
    u64bits x = x.toNat := by
  unfold u64bits
  rw [Int.emod_eq_of_lt h0 h1]

theorem u64bits_neg {x : Int} (h0 : -(2 ^ 64) ≤ x) (h1 : x < 0) :
    u64bits x = (x + 2 ^ 64).toNat := by
  unfold u64bits
  have : x % (2 ^ 64 : Int) = x + 2 ^ 64 := by omega
  rw [this]

theorem i64sub_one_pos {sc : Int} (h1 : 1 ≤ sc) (h2 : sc < 2 ^ 63) :
    i64sub sc 1 = sc - 1 := by
  unfold i64sub
  have hb : u64bits sc = sc.toNat := u64bits_nonneg (by omega) (by omega)
  have hb1 : u64bits 1 = 1 := by decide
  rw [hb, hb1]
  have hlt : sc.toNat < 2 ^ 63 := by omega
  have hge : 1 ≤ sc.toNat := by omega
  have hsub : u64sub sc.toNat 1 = sc.toNat - 1 := by
    unfold u64sub U64
    have e1 : sc.toNat % 2 ^ 64 = sc.toNat := Nat.mod_eq_of_lt (by omega)
    have e2 : (1 : Nat) % 2 ^ 64 = 1 := by norm_num
    rw [e1, e2]
    omega
  rw [hsub]
  unfold i64ofBits
  rw [if_pos (by omega)]
  omega

theorem i64land_pos {x y : Int} (hx0 : 0 ≤ x) (hx : x < 2 ^ 63)
    (hy0 : 0 ≤ y) (hy : y < 2 ^ 64) :
    i64land x y = (Nat.land x.toNat y.toNat : Int) := by
  unfold i64land
  rw [u64bits_nonneg hx0 (by omega), u64bits_nonneg hy0 hy]
  unfold i64ofBits
  rw [if_pos]
  calc Nat.land x.toNat y.toNat ≤ x.toNat := Nat.and_le_left
    _ < 2 ^ 63 := by omega

theorem i64land_pred_pos {sc : Int} (h1 : 1 ≤ sc) (h2 : sc < 2 ^ 63) :
    i64land sc (i64sub sc 1) = (Nat.land sc.toNat (sc.toNat - 1) : Int) := by
  rw [i64sub_one_pos h1 h2, i64land_pos (by omega) h2 (by omega) (by omega)]
  have he : (sc - 1).toNat = sc.toNat - 1 := by omega
  rw [he]

theorem i64land_pred_neg {sc : Int} (h1 : -(2 ^ 63) < sc) (h2 : sc < 0) :
    i64land sc (i64sub sc 1) ≠ 0 := by
  have hb : u64bits sc = (sc + 2 ^ 64).toNat := u64bits_neg (by omega) h2
  have hbr : 2 ^ 63 < (sc + 2 ^ 64).toNat ∧ (sc + 2 ^ 64).toNat < 2 ^ 64 := by
    constructor <;> omega
  have hsub : i64sub sc 1 = i64ofBits ((sc + 2 ^ 64).toNat - 1) := by
    unfold i64sub
    rw [hb, show u64bits 1 = 1 from by decide]
    have e : u64sub ((sc + 2 ^ 64).toNat) 1 = (sc + 2 ^ 64).toNat - 1 := by
      unfold u64sub U64
      have e1 : (sc + 2 ^ 64).toNat % 2 ^ 64 = (sc + 2 ^ 64).toNat :=
        Nat.mod_eq_of_lt (by omega)
      have e2 : (1 : Nat) % 2 ^ 64 = 1 := by norm_num
      rw [e1, e2]
      omega
    rw [e]
  have hsubBits : u64bits (i64sub sc 1) = (sc + 2 ^ 64).toNat - 1 := by
    rw [hsub]
    unfold i64ofBits
    rw [if_neg (by omega)]
    unfold u64bits
    have : ((((sc + 2 ^ 64).toNat - 1 : Nat) : Int) - 2 ^ 64) % (2 ^ 64 : Int) =
        (((sc + 2 ^ 64).toNat - 1 : Nat) : Int) := by omega
    rw [this]
    exact Int.toNat_natCast _
  unfold i64land
  rw [hb, hsubBits]
  have ht1 : ((sc + 2 ^ 64).toNat).testBit 63 = true :=
    testBit63_of_range (by omega) (by omega)
  have ht2 : ((sc + 2 ^ 64).toNat - 1).testBit 63 = true :=
    testBit63_of_range (by omega) (by omega)
  have hland : (Nat.land ((sc + 2 ^ 64).toNat) ((sc + 2 ^ 64).toNat - 1)).testBit 63 = true := by
    show (((sc + 2 ^ 64).toNat) &&& ((sc + 2 ^ 64).toNat - 1)).testBit 63 = true
    rw [Nat.testBit_land, ht1, ht2]
    rfl
  have hge := ge_of_testBit63 hland
  have hlt : Nat.land ((sc + 2 ^ 64).toNat) ((sc + 2 ^ 64).toNat - 1) < 2 ^ 64 :=
    calc Nat.land _ _ ≤ (sc + 2 ^ 64).toNat := Nat.and_le_left
      _ < 2 ^ 64 := by omega
  unfold i64ofBits
  rw [if_neg (by omega)]
  omega

/-- C8.  On a 64-bit platform, construction fails to produce a cache — an
error return, or the panic of the shard-slice allocation reachable only at
shard count `-2^63` — exactly when the configured shard count is not a
power of two or `MRUSize` is zero; a shard count of `0` is accepted and
replaced by the default 512. -/
theorem c8_new_validation (c : Config)
    (hlo : -(2 ^ 63) ≤ c.ShardCount) (hhi : c.ShardCount < 2 ^ 63) :
    ((∀ n, New c ≠ .ok n) ↔
      ((¬ isPow2 c.ShardCount ∧ c.ShardCount ≠ 0) ∨ c.MRUSize = 0)) ∧
    (c.ShardCount = 0 → c.MRUSize ≠ 0 → New c = .ok 512) := by
  have hnppow : c.ShardCount ≤ 0 → ¬ isPow2 c.ShardCount := by
    rintro hle ⟨i, hi⟩
    have : (0 : Int) < 2 ^ i := by positivity
    omega
  rcases lt_trichotomy c.ShardCount 0 with hneg | hzero | hpos
  · by_cases hmin : c.ShardCount = -(2 ^ 63)
    · have hchk : i64land c.ShardCount (i64sub c.ShardCount 1) = 0 := by
        rw [hmin]
        decide
      have hnew : New c = if c.MRUSize = 0 then .rejected else .crashed := by
        unfold New
        rw [if_neg (not_not_intro hchk)]
        by_cases hm : c.MRUSize = 0
        · rw [if_pos hm, if_pos hm]
        · rw [if_neg hm, if_neg hm, if_neg (by omega : ¬ c.ShardCount = 0),
            if_pos (by omega : c.ShardCount < 0)]
      refine ⟨⟨fun _ => Or.inl ⟨hnppow (by omega), by omega⟩, fun _ n => ?_⟩,
        fun h0 => absurd h0 (by omega)⟩
      rw [hnew]
      by_cases hm : c.MRUSize = 0 <;> simp [hm]
    · have hne : i64land c.ShardCount (i64sub c.ShardCount 1) ≠ 0 :=
        i64land_pred_neg (by omega) hneg
      have hnew : New c = .rejected := by
        unfold New
        rw [if_pos hne]
      refine ⟨⟨fun _ => Or.inl ⟨hnppow (by omega), by omega⟩, fun _ n => ?_⟩,
        fun h0 => absurd h0 (by omega)⟩
      rw [hnew]
      simp
  · have hchk : ¬ (i64land c.ShardCount (i64sub c.ShardCount 1) ≠ 0) := by
      rw [hzero]
      decide
    have hnew : New c = if c.MRUSize = 0 then .rejected else .ok 512 := by
      unfold New
      rw [if_neg hchk]
      by_cases hm : c.MRUSize = 0
      · rw [if_pos hm, if_pos hm]
      · rw [if_neg hm, if_neg hm, hzero]
        rfl
    constructor
    · constructor
      · intro hfail
        by_cases hm : c.MRUSize = 0
        · exact Or.inr hm
        · exfalso
          exact hfail 512 (by rw [hnew, if_neg hm])
      · rintro (⟨_, hne⟩ | hm) n
        · exact absurd hzero hne
        · rw [hnew, if_pos hm]
          simp
    · intro _ hm
      rw [hnew, if_neg hm]
  · have hland := i64land_pred_pos (by omega) hhi
    by_cases hz : Nat.land c.ShardCount.toNat (c.ShardCount.toNat - 1) = 0
    · have hpow : isPow2 c.ShardCount := by
        obtain ⟨i, hi⟩ := pow2_of_land_pred_zero c.ShardCount.toNat (by omega) hz
        refine ⟨i, ?_⟩
        have hcast : ((2 ^ i : Nat) : Int) = (2 : Int) ^ i := by push_cast; ring
        omega
      have hchk : ¬ (i64land c.ShardCount (i64sub c.ShardCount 1) ≠ 0) := by
        rw [hland, hz]
        exact not_not_intro rfl
      have hnew : New c = if c.MRUSize = 0 then .rejected
          else .ok c.ShardCount := by
        unfold New
        rw [if_neg hchk]
        by_cases hm : c.MRUSize = 0
        · rw [if_pos hm, if_pos hm]
        · rw [if_neg hm, if_neg hm, if_neg (by omega : ¬ c.ShardCount = 0),
            if_neg (by omega : ¬ c.ShardCount < 0)]
      constructor
      · constructor
        · intro hfail
          by_cases hm : c.MRUSize = 0
          · exact Or.inr hm
          · exfalso
            exact hfail c.ShardCount (by rw [hnew, if_neg hm])
        · rintro (⟨hnp, _⟩ | hm) n
          · exact absurd hpow hnp
          · rw [hnew, if_pos hm]
            simp
      · intro h0
        exact absurd h0 (by omega)
    · have hne : i64land c.ShardCount (i64sub c.ShardCount 1) ≠ 0 := by
        rw [hland]
        exact_mod_cast hz
      have hnew : New c = .rejected := by
        unfold New
        rw [if_pos hne]
      have hnp : ¬ isPow2 c.ShardCount := by
        rintro ⟨i, hi⟩
        apply hz
        have hcast : ((2 ^ i : Nat) : Int) = (2 : Int) ^ i := by push_cast; ring
        have : c.ShardCount.toNat = 2 ^ i := by omega
        rw [this]
        exact land_pred_zero_of_pow2 i
      refine ⟨⟨fun _ => Or.inl ⟨hnp, by omega⟩, fun _ n => ?_⟩,
        fun h0 => absurd h0 (by omega)⟩
      rw [hnew]
      simp

/-- Witness for C8: shard count 3 (not a power of two) is rejected, and the
unset shard count with a nonzero MRU size yields the default 512. -/
theorem c8_new_validation_witness :
    (∀ n, New ⟨0, 30, 3, false⟩ ≠ NewOutcome.ok n) ∧
    New ⟨0, 30, 0, false⟩ = NewOutcome.ok 512 := by
  have hnp : ¬ isPow2 (3 : Int) := by
    rintro ⟨i, hi⟩
    match i with
    | 0 => simp at hi
    | 1 => norm_num at hi
    | (j + 2) =>
      have h4 : (4 : Int) ≤ 2 ^ (j + 2) := by
        calc (4 : Int) = 2 ^ 2 := by norm_num
          _ ≤ 2 ^ (j + 2) := by
            apply pow_le_pow_right₀ (by norm_num)
            omega
      omega
  constructor
  · exact ((c8_new_validation ⟨0, 30, 3, false⟩ (by norm_num)
      (by norm_num)).1).mpr (Or.inl ⟨hnp, by norm_num⟩)
  · exact (c8_new_validation ⟨0, 30, 0, false⟩ (by norm_num)
      (by norm_num)).2 rfl (by norm_num)

/-! ### Claim C10: `decrementTTLCount` -/

/-- C10.  For every shard and every `n`, `decrementTTLCount n` sets the TTL
counter to `ttlCount − n` when `n ≤ ttlCount` and clamps it to `0`
otherwise (the `uint64` counter never wraps below zero), while the
evictions counter increases by exactly `n` (as a `uint64`) in both cases. -/
theorem c10_decrementTTLCount (s : Shard) (n : Nat)
    (htc : s.ttlCount < U64) (hn : n < U64) :
    (decrementTTLCount s n).ttlCount =
      (if n ≤ s.ttlCount then s.ttlCount - n else 0) ∧
    (decrementTTLCount s n).evictions = (s.evictions + n) % U64 := by
  have hU : U64 = 18446744073709551616 := rfl
  have hsub : u64sub s.ttlCount n =
      if n ≤ s.ttlCount then s.ttlCount - n else s.ttlCount + U64 - n := by
    unfold u64sub
    rw [hU] at htc hn ⊢
    rw [Nat.mod_eq_of_lt htc, Nat.mod_eq_of_lt hn]
    split <;> omega
  have hval : u64add s.ttlCount (complement64 (u64sub n 1)) =
      if n ≤ s.ttlCount then s.ttlCount - n else
        (s.ttlCount + (U64 - n)) % U64 := by
    unfold u64add u64sub complement64
    rw [hU] at htc hn ⊢
    rw [Nat.mod_eq_of_lt hn]
    split <;> omega
  constructor
  · by_cases hc : s.ttlCount < u64sub s.ttlCount n
    · simp only [decrementTTLCount, if_pos hc]
      rw [hsub] at hc
      have hgt : ¬ n ≤ s.ttlCount := by
        by_contra hle
        rw [if_pos hle] at hc
        omega
      rw [if_neg hgt]
    · simp only [decrementTTLCount, if_neg hc]
      rw [hsub] at hc
      have hle : n ≤ s.ttlCount := by
        by_contra hgt
        rw [if_neg hgt, hU] at hc
        rw [hU] at htc hn
        omega
      rw [hval, if_pos hle, if_pos hle]
  · by_cases hc : s.ttlCount < u64sub s.ttlCount n
    · simp only [decrementTTLCount, if_pos hc]
      rfl
    · simp only [decrementTTLCount, if_neg hc]
      rfl

/-- Witness for C10 at a concrete shard. -/
theorem c10_decrementTTLCount_witness :
    (decrementTTLCount (initShard 0 1 false 0) 3).ttlCount = 0 ∧
    (decrementTTLCount (initShard 0 1 false 0) 3).evictions = 3 := by
  have h := c10_decrementTTLCount (initShard 0 1 false 0) 3
    (by decide) (by norm_num [U64])
  refine ⟨?_, ?_⟩
  · rw [h.1]; rfl
  · rw [h.2]; rfl

/-! ### Claim C6: `Get` is read-only up to score and counters -/

/-- C6.  `Get k` never reorders either list, never touches the TTL map and
never changes any entry other than `k`'s: on a hit it returns the stored
value and increments exactly that node's score and the hit counter; on a
miss it increments exactly the miss counter and returns Go `nil`. -/
theorem c6_get_frame (s : Shard) (k : String) :
    (∀ e, mapLookup s.cacheMap k = some e →
      (Get s k).1 = e.value ∧
      (Get s k).2.mru = s.mru ∧
      (Get s k).2.mfu = s.mfu ∧
      (Get s k).2.ttlMap = s.ttlMap ∧
      (Get s k).2.ttlCount = s.ttlCount ∧
      (Get s k).2.nearestExpire = s.nearestExpire ∧
      (Get s k).2.hits = u64add s.hits 1 ∧
      (Get s k).2.misses = s.misses ∧
      (Get s k).2.evictions = s.evictions ∧
      (Get s k).2.overflows = s.overflows ∧
      mapLookup (Get s k).2.cacheMap k =
        some { e with score := u64add e.score 1 } ∧
      (∀ k', k' ≠ k →
        mapLookup (Get s k).2.cacheMap k' = mapLookup s.cacheMap k')) ∧
    (mapLookup s.cacheMap k = none →
      (Get s k).1 = none ∧
      (Get s k).2 = { s with misses := u64add s.misses 1 }) := by
  constructor
  · intro e he
    have hg : Get s k =
        (e.value, { bumpScore s k with hits := u64add s.hits 1 }) := by
      unfold Get
      rw [he]
    rw [hg]
    refine ⟨rfl, rfl, rfl, rfl, rfl, rfl, rfl, rfl, rfl, rfl, ?_, ?_⟩
    · show mapLookup (mapAdjust s.cacheMap k _) k = _
      rw [mapLookup_adjust_self, he]
      rfl
    · intro k' hk'
      exact mapLookup_adjust_ne _ _ _ _ hk'
  · intro he
    have hg : Get s k = (none, { s with misses := u64add s.misses 1 }) := by
      unfold Get
      rw [he]
    rw [hg]
    exact ⟨rfl, rfl⟩

/-- Witness for C6 at a concrete shard with one present and one absent
key. -/
theorem c6_get_frame_witness :
    let s : Shard :=
      { cacheMap := [("a", ⟨7, some "x", 0⟩)], mru := ["a"], mfu := []
        mfuCap := 0, mruCap := 1, ttlMap := [], ttlCount := 0
        nearestExpire := 0, noOverflow := false
        hits := 0, misses := 0, evictions := 0, overflows := 0 }
    (Get s "a").1 = some "x" ∧ (Get s "b").1 = none := by
  intro s
  have h := c6_get_frame s "a"
  have h2 := c6_get_frame s "b"
  exact ⟨(h.1 ⟨7, some "x", 0⟩ rfl).1, (h2.2 rfl).1⟩

/-! ### Claim C1: the overflow-rejected path of `Set` and `SetTTL` -/

/-- C1 counterexample.  At a concrete full no-overflow shard, `SetTTL` of an
absent key returns `false` yet changes the TTL map and the TTL counter, so
the rejection does not leave all other shard state unchanged. -/
theorem c1_counterexample :
    let s : Shard :=
      { cacheMap := [("a", ⟨0, some "x", 0⟩)], mru := ["a"], mfu := []
        mfuCap := 0, mruCap := 1, ttlMap := [], ttlCount := 0
        nearestExpire := 100, noOverflow := true
        hits := 0, misses := 0, evictions := 0, overflows := 0 }
    (SetTTL s "b" (some "y") 5 0).1 = false ∧
    (SetTTL s "b" (some "y") 5 0).2.ttlMap ≠ s.ttlMap ∧
    (SetTTL s "b" (some "y") 5 0).2.ttlCount ≠ s.ttlCount := by
  decide

/-- C1 amended.  On an overflow-rejected set of an absent key, `Set` returns
`false`, increments the overflows counter and leaves every other piece of
shard state unchanged; `SetTTL` also returns `false` and increments the
overflows counter, but in addition it has already recorded the key's expiry
in the TTL map and incremented the TTL counter — only the entry map, the
two lists and the nearest expire are left unchanged by it. -/
theorem c1_overflow_reject (s : Shard) (k : String) (v : GoVal) (t now : Int)
    (habs : mapLookup s.cacheMap k = none)
    (hno : s.noOverflow = true) (hfull : s.mruCap ≤ s.mru.length) :
    Set s k v = (false, { s with overflows := u64add s.overflows 1 }) ∧
    SetTTL s k v t now =
      (false, { s with ttlMap := mapInsert s.ttlMap k (now + t)
                       ttlCount := u64add s.ttlCount 1
                       overflows := u64add s.overflows 1 }) := by
  constructor
  · simp only [Set, SetRaw, habs, hno, hfull, and_self, if_true, true_and]
    rfl
  · simp only [SetTTL, SetTTLRaw, habs, hno, hfull, and_self, if_true,
      true_and]
    rfl

/-- Witness for C1's amended statement at a concrete shard. -/
theorem c1_overflow_reject_witness :
    let s : Shard :=
      { cacheMap := [("a", ⟨0, some "x", 0⟩)], mru := ["a"], mfu := []
        mfuCap := 0, mruCap := 1, ttlMap := [], ttlCount := 0
        nearestExpire := 100, noOverflow := true
        hits := 0, misses := 0, evictions := 0, overflows := 0 }
    Set s "b" (some "y") =
      (false, { s with overflows := u64add s.overflows 1 }) ∧
    SetTTL s "b" (some "y") 5 0 =
      (false, { s with ttlMap := mapInsert s.ttlMap "b" 5
                       ttlCount := u64add s.ttlCount 1
                       overflows := u64add s.overflows 1 }) := by
  intro s
  have h := c1_overflow_reject s "b" (some "y") 5 0 rfl rfl (by decide)
  exact ⟨h.1, h.2⟩

/-! ### Lemmas: list surgery for the heap -/

theorem getD_set_self {l : List String} {n : Nat} (h : n < l.length)
    (a : String) : (l.set n a).getD n "" = a := by
  rw [List.getD_eq_getElem _ _ (by simpa using h)]
  simp [List.getElem_set]

theorem getD_set_ne {l : List String} {n m : Nat} (a : String) (hne : m ≠ n) :
    (l.set n a).getD m "" = l.getD m "" := by
  by_cases h : m < l.length
  · rw [List.getD_eq_getElem _ _ (by simpa using h),
      List.getD_eq_getElem _ _ h]
    simp [List.getElem_set, hne.symm]
  · rw [List.getD_eq_default _ _ (by simpa using not_lt.mp h),
      List.getD_eq_default _ _ (not_lt.mp h)]

theorem headD_eq_getD (l : List String) : l.headD "" = l.getD 0 "" := by
  cases l <;> rfl

theorem headD_mem {l : List String} (h : l ≠ []) : l.headD "" ∈ l := by
  cases l with
  | nil => exact absurd rfl h
  | cons a t => exact List.mem_cons_self a t

theorem getD_mem {l : List String} {n : Nat} (h : n < l.length) :
    l.getD n "" ∈ l := by
  rw [List.getD_eq_getElem _ _ h]
  exact List.getElem_mem h

theorem lswap_length (l : List String) (i j : Nat) :
    (lswap l i j).length = l.length := by
  simp [lswap]

theorem lswap_getD_fst {l : List String} {i j : Nat} (hi : i < l.length)
    (hj : j < l.length) : (lswap l i j).getD i "" = l.getD j "" := by
  unfold lswap
  by_cases he : i = j
  · subst he
    rw [getD_set_self (by simpa using hi)]
  · rw [getD_set_ne _ he, getD_set_self hi]

theorem lswap_getD_snd {l : List String} {i j : Nat} (hi : i < l.length)
    (hj : j < l.length) : (lswap l i j).getD j "" = l.getD i "" := by
  unfold lswap
  rw [getD_set_self (by simpa using hj)]

theorem lswap_getD_other {l : List String} {i j m : Nat} (hmi : m ≠ i)
    (hmj : m ≠ j) : (lswap l i j).getD m "" = l.getD m "" := by
  unfold lswap
  rw [getD_set_ne _ hmj, getD_set_ne _ hmi]

theorem coe_append_cons_swap (T D : List String) (a b : String) :
    (↑(T ++ a :: D) : Multiset String) + {b} = ↑(T ++ b :: D) + {a} := by
  have h1 : ∀ x : String,
      (↑(T ++ x :: D) : Multiset String) = ↑T + (x ::ₘ ↑D) := by
    intro x
    simp
  rw [h1 a, h1 b]
  simp only [← Multiset.singleton_add]
  abel

theorem set_coe_add {l : List String} {n : Nat} (h : n < l.length)
    (a : String) :
    (↑(l.set n a) : Multiset String) + {l.getD n ""} = ↑l + {a} := by
  have hl : l = l.take n ++ l.getD n "" :: l.drop (n + 1) := by
    conv_lhs => rw [← List.take_append_drop n l]
    rw [List.getD_eq_getElem _ _ h, ← List.drop_eq_getElem_cons h]
  calc (↑(l.set n a) : Multiset String) + {l.getD n ""}
      = ↑(l.take n ++ a :: l.drop (n + 1)) + {l.getD n ""} := by
        rw [List.set_eq_take_cons_drop a h]
    _ = ↑(l.take n ++ l.getD n "" :: l.drop (n + 1)) + {a} :=
        coe_append_cons_swap _ _ _ _
    _ = ↑l + {a} := by rw [← hl]

theorem lswap_perm {l : List String} {i j : Nat} (hi : i < l.length)
    (hj : j < l.length) : List.Perm (lswap l i j) l := by
  rw [← Multiset.coe_eq_coe]
  have h1 := set_coe_add hi (l.getD j "")
  have h2 : (↑(lswap l i j) : Multiset String) +
      {(l.set i (l.getD j "")).getD j ""} =
      ↑(l.set i (l.getD j "")) + {l.getD i ""} :=
    set_coe_add (by simpa using hj) _
  have h3 : (l.set i (l.getD j "")).getD j "" = l.getD j "" := by
    by_cases he : j = i
    · subst he
      rw [getD_set_self hj]
    · exact getD_set_ne _ he
  rw [h3] at h2
  exact add_right_cancel (h2.trans h1)

/-! ### Lemmas: sift-up and sift-down preserve content -/

theorem heapUp_perm (lt : String → String → Bool) :
    ∀ l j, j < l.length → List.Perm (heapUp lt l j) l := by
  intro l j
  induction l, j using heapUp.induct lt with
  | case1 l =>
    intro _
    rw [heapUp]
    simp
  | case2 l j hj0 i hg ih =>
    intro hj
    have hstep : heapUp lt l j = heapUp lt (lswap l i j) i := by
      rw [heapUp, dif_neg hj0]
      exact if_pos hg
    have hi : i < l.length := by omega
    have hlen : (lswap l i j).length = l.length := lswap_length l i j
    rw [hstep]
    exact (ih (by omega)).trans (lswap_perm hi hj)
  | case3 l j hj0 i hg =>
    intro _
    have hstep : heapUp lt l j = l := by
      rw [heapUp, dif_neg hj0]
      exact if_neg hg
    rw [hstep]

theorem heapUp_length (lt : String → String → Bool) (l : List String)
    (j : Nat) (hj : j < l.length) :
    (heapUp lt l j).length = l.length :=
  (heapUp_perm lt l j hj).length_eq

theorem heapDown_perm (lt : String → String → Bool) :
    ∀ l i n, n ≤ l.length → List.Perm (heapDown lt l i n) l := by
  intro l i n
  induction l, i, n using heapDown.induct lt with
  | case1 l i n hn j1 j hg ih =>
    intro hnl
    have hstep : heapDown lt l i n = heapDown lt (lswap l i j) j n := by
      rw [heapDown, dif_pos hn]
      exact if_pos hg
    have hjn : j < n := by
      simp only [j, j1]
      split <;> omega
    have hin : i < l.length := by omega
    have hjl : j < l.length := by omega
    have hlen : (lswap l i j).length = l.length := lswap_length l i j
    rw [hstep]
    exact (ih (by omega)).trans (lswap_perm hin hjl)
  | case2 l i n hn j1 j hg =>
    intro _
    have hstep : heapDown lt l i n = l := by
      rw [heapDown, dif_pos hn]
      exact if_neg hg
    rw [hstep]
  | case3 l i n hn =>
    intro _
    rw [heapDown, dif_neg hn]

theorem heapDown_length (lt : String → String → Bool) (l : List String)
    (i n : Nat) (hn : n ≤ l.length) :
    (heapDown lt l i n).length = l.length :=
  (heapDown_perm lt l i n hn).length_eq

theorem heapDown_getD_ge (lt : String → String → Bool) :
    ∀ l i n m, n ≤ m → (heapDown lt l i n).getD m "" = l.getD m "" := by
  intro l i n
  induction l, i, n using heapDown.induct lt with
  | case1 l i n hn j1 j hg ih =>
    intro m hm
    have hstep : heapDown lt l i n = heapDown lt (lswap l i j) j n := by
      rw [heapDown, dif_pos hn]
      exact if_pos hg
    have hjn : j < n := by
      simp only [j, j1]
      split <;> omega
    rw [hstep, ih m hm, lswap_getD_other (by omega) (by omega)]
  | case2 l i n hn j1 j hg =>
    intro m hm
    have hstep : heapDown lt l i n = l := by
      rw [heapDown, dif_pos hn]
      exact if_neg hg
    rw [hstep]
  | case3 l i n hn =>
    intro m hm
    rw [heapDown, dif_neg hn]

/-! ### Lemmas: sift-up and sift-down restore heap order -/

theorem lt_irrefl_of_asym {lt : String → String → Bool} (hA : LtAsym lt)
    (a : String) : lt a a = false := by
  by_cases h : lt a a = true
  · exact hA a a h
  · simpa using h

theorem isHeapPre_root_le {lt : String → String → Bool} (hA : LtAsym lt)
    (hT : LtTrans lt) {l : List String} {n : Nat} (h : IsHeapPre lt l n) :
    ∀ j, j < n → lt (l.getD j "") (l.getD 0 "") = false := by
  intro j
  induction j using Nat.strong_induction_on with
  | _ j ih =>
    intro hj
    by_cases hj0 : j = 0
    · subst hj0
      exact lt_irrefl_of_asym hA _
    · have hpar := h j (by omega) hj
      unfold heapEdge at hpar
      have hup := ih ((j - 1) / 2) (by omega) (by omega)
      exact hT _ _ _ hup hpar

theorem heapUp_correct {lt : String → String → Bool} (hA : LtAsym lt)
    (hT : LtTrans lt) :
    ∀ l j, j < l.length →
    (∀ m, 0 < m → m < l.length → m ≠ j → heapEdge lt l m) →
    (0 < j → ∀ c, c < l.length → (c = 2 * j + 1 ∨ c = 2 * j + 2) →
      lt (l.getD c "") (l.getD ((j - 1) / 2) "") = false) →
    IsHeap lt (heapUp lt l j) := by
  intro l j
  induction l, j using heapUp.induct lt with
  | case1 l =>
    intro hj h1 h2
    have hstep : heapUp lt l 0 = l := by
      rw [heapUp]
      simp
    rw [hstep]
    intro m hm0 hmlen
    exact h1 m hm0 hmlen (by omega)
  | case2 l j hj0 i hg ih =>
    intro hj h1 h2
    have hidef : i = (j - 1) / 2 := rfl
    have hstep : heapUp lt l j = heapUp lt (lswap l i j) i := by
      rw [heapUp, dif_neg hj0]
      exact if_pos hg
    rw [hstep]
    have hij : i < j := by omega
    have hil : i < l.length := by omega
    have hlen : (lswap l i j).length = l.length := lswap_length l i j
    apply ih
    · omega
    · intro m hm0 hmlen hmne
      rw [hlen] at hmlen
      by_cases hmj : m = j
      · subst hmj
        unfold heapEdge
        rw [← hidef, lswap_getD_snd hil hj, lswap_getD_fst hil hj]
        exact hA _ _ hg
      · by_cases hpmi : (m - 1) / 2 = i
        · unfold heapEdge
          rw [lswap_getD_other hmne hmj, hpmi, lswap_getD_fst hil hj]
          have hedgem : lt (l.getD m "") (l.getD i "") = false := by
            have he := h1 m hm0 hmlen hmj
            unfold heapEdge at he
            rwa [hpmi] at he
          exact hT (l.getD j "") (l.getD i "") (l.getD m "") (hA _ _ hg) hedgem
        · by_cases hpmj : (m - 1) / 2 = j
          · have hm_cases : m = 2 * j + 1 ∨ m = 2 * j + 2 := by omega
            unfold heapEdge
            rw [lswap_getD_other hmne hmj, hpmj, lswap_getD_snd hil hj]
            have := h2 (by omega) m hmlen hm_cases
            rwa [← hidef] at this
          · unfold heapEdge
            rw [lswap_getD_other hmne hmj, lswap_getD_other hpmi hpmj]
            exact h1 m hm0 hmlen hmj
    · intro hi0 c hclen hcc
      rw [hlen] at hclen
      have hpi_ne_i : (i - 1) / 2 ≠ i := by omega
      have hpi_ne_j : (i - 1) / 2 ≠ j := by omega
      rw [lswap_getD_other hpi_ne_i hpi_ne_j]
      have hedge_i : lt (l.getD i "") (l.getD ((i - 1) / 2) "") = false := by
        have he := h1 i hi0 hil (by omega)
        unfold heapEdge at he
        exact he
      by_cases hcj : c = j
      · subst hcj
        rw [lswap_getD_snd hil hj]
        exact hedge_i
      · have hci : c ≠ i := by omega
        rw [lswap_getD_other hci hcj]
        have hedge_c : lt (l.getD c "") (l.getD i "") = false := by
          have he := h1 c (by omega) hclen hcj
          unfold heapEdge at he
          rwa [show (c - 1) / 2 = i from by omega] at he
        exact hT _ _ _ hedge_i hedge_c
  | case3 l j hj0 i hg =>
    intro hj h1 h2
    have hidef : i = (j - 1) / 2 := rfl
    have hstep : heapUp lt l j = l := by
      rw [heapUp, dif_neg hj0]
      exact if_neg hg
    rw [hstep]
    intro m hm0 hmlen
    by_cases hmj : m = j
    · subst hmj
      unfold heapEdge
      rw [← hidef]
      simpa using hg
    · exact h1 m hm0 hmlen hmj

theorem heapDown_correct {lt : String → String → Bool} (hA : LtAsym lt)
    (hT : LtTrans lt) :
    ∀ l i n, n ≤ l.length →
    (∀ m, 0 < m → m < n → (m - 1) / 2 ≠ i → heapEdge lt l m) →
    (0 < i → ∀ c, c < n → (c = 2 * i + 1 ∨ c = 2 * i + 2) →
      lt (l.getD c "") (l.getD ((i - 1) / 2) "") = false) →
    IsHeapPre lt (heapDown lt l i n) n := by
  intro l i n
  induction l, i, n using heapDown.induct lt with
  | case1 l i n hn j1 j hg ih =>
    intro hnl h1 h2
    have hj1def : j1 = 2 * i + 1 := rfl
    have hjdef : j = if j1 + 1 < n ∧
        lt (l.getD (j1 + 1) "") (l.getD j1 "") = true then j1 + 1 else j1 := by
      simp only [j]
      split <;> rename_i hc <;> simp [hc]
    have hjn : j < n := by
      rw [hjdef]
      split <;> omega
    have hjchild : j = 2 * i + 1 ∨ j = 2 * i + 2 := by
      rw [hjdef]
      split <;> omega
    have hij : i < j := by omega
    have hin : i < l.length := by omega
    have hjl : j < l.length := by omega
    have hstep : heapDown lt l i n = heapDown lt (lswap l i j) j n := by
      rw [heapDown, dif_pos hn]
      exact if_pos hg
    rw [hstep]
    have hlen : (lswap l i j).length = l.length := lswap_length l i j
    -- the chosen child is not greater than its sibling
    have hjmin : ∀ m, m < n → (m = 2 * i + 1 ∨ m = 2 * i + 2) → m ≠ j →
        lt (l.getD m "") (l.getD j "") = false := by
      intro m hmn hmc hmj
      rw [hjdef] at hmj ⊢
      by_cases hcond : j1 + 1 < n ∧ lt (l.getD (j1 + 1) "") (l.getD j1 "") = true
      · rw [if_pos hcond] at hmj ⊢
        have hm1 : m = 2 * i + 1 := by omega
        subst hm1
        have := hA _ _ hcond.2
        simpa [hj1def] using this
      · rw [if_neg hcond] at hmj ⊢
        have hm2 : m = 2 * i + 2 := by omega
        subst hm2
        have : ¬ lt (l.getD (j1 + 1) "") (l.getD j1 "") = true := by
          intro hc
          exact hcond ⟨by omega, hc⟩
        simpa [hj1def] using this
    apply ih
    · omega
    · intro m hm0 hmn hpm
      by_cases hmj : m = j
      · subst hmj
        unfold heapEdge
        rw [show (j - 1) / 2 = i from by omega, lswap_getD_snd hin hjl,
          lswap_getD_fst hin hjl]
        exact hA _ _ hg
      · by_cases hmi : m = i
        · subst hmi
          unfold heapEdge
          have hpi_ne_i : (m - 1) / 2 ≠ m := by omega
          have hpi_ne_j : (m - 1) / 2 ≠ j := by omega
          rw [lswap_getD_fst hin hjl, lswap_getD_other hpi_ne_i hpi_ne_j]
          exact h2 hm0 j hjn hjchild
        · unfold heapEdge
          rw [lswap_getD_other hmi hmj]
          by_cases hpmi : (m - 1) / 2 = i
          · have hmc : m = 2 * i + 1 ∨ m = 2 * i + 2 := by omega
            rw [hpmi, lswap_getD_fst hin hjl]
            exact hjmin m hmn hmc hmj
          · have hpm_ne_j : (m - 1) / 2 ≠ j := hpm
            rw [lswap_getD_other hpmi hpm_ne_j]
            exact h1 m hm0 hmn hpmi
    · intro hj0 c hcn hcc
      have hci : c ≠ i := by omega
      have hcj : c ≠ j := by omega
      have hpj : (j - 1) / 2 = i := by omega
      rw [hpj, lswap_getD_other hci hcj, lswap_getD_fst hin hjl]
      have he := h1 c (by omega) hcn (by omega)
      unfold heapEdge at he
      rwa [show (c - 1) / 2 = j from by omega] at he
  | case2 l i n hn j1 j hg =>
    intro hnl h1 h2
    have hj1def : j1 = 2 * i + 1 := rfl
    have hjdef : j = if j1 + 1 < n ∧
        lt (l.getD (j1 + 1) "") (l.getD j1 "") = true then j1 + 1 else j1 := by
      simp only [j]
      split <;> rename_i hc <;> simp [hc]
    have hjn : j < n := by
      rw [hjdef]
      split <;> omega
    have hgf : lt (l.getD j "") (l.getD i "") = false := by
      simpa using hg
    have hstep : heapDown lt l i n = l := by
      rw [heapDown, dif_pos hn]
      exact if_neg hg
    rw [hstep]
    intro m hm0 hmn
    by_cases hpmi : (m - 1) / 2 = i
    · unfold heapEdge
      rw [hpmi]
      have hmc : m = 2 * i + 1 ∨ m = 2 * i + 2 := by omega
      by_cases hmj : m = j
      · subst hmj
        exact hgf
      · rw [hjdef] at hmj
        by_cases hcond : j1 + 1 < n ∧ lt (l.getD (j1 + 1) "") (l.getD j1 "") = true
        · rw [if_pos hcond] at hmj
          have hm1 : m = 2 * i + 1 := by omega
          subst hm1
          have hj2 : lt (l.getD (j1 + 1) "") (l.getD i "") = false := by
            have hj2' : j = j1 + 1 := by rw [hjdef, if_pos hcond]
            rw [← hj2']
            exact hgf
          have hstepb : lt (l.getD (j1 + 1) "") (l.getD (2 * i + 1) "") =
              true := by simpa [hj1def] using hcond.2
          exact hT _ _ _ hj2 (by simpa [hj1def] using hA _ _ hstepb)
        · rw [if_neg hcond] at hmj
          have hm2 : m = 2 * i + 2 := by omega
          subst hm2
          have hj1' : j = j1 := by rw [hjdef, if_neg hcond]
          have hsib : lt (l.getD (2 * i + 2) "") (l.getD (2 * i + 1) "") =
              false := by
            have : ¬ lt (l.getD (j1 + 1) "") (l.getD j1 "") = true := by
              intro hc
              exact hcond ⟨by omega, hc⟩
            simpa [hj1def] using this
          have hj1i : lt (l.getD (2 * i + 1) "") (l.getD i "") = false := by
            have := hgf
            rwa [hj1', hj1def] at this
          exact hT _ _ _ hj1i hsib
    · exact h1 m hm0 hmn hpmi
  | case3 l i n hn =>
    intro hnl h1 h2
    rw [heapDown, dif_neg hn]
    intro m hm0 hmn
    by_cases hpmi : (m - 1) / 2 = i
    · exfalso
      omega
    · exact h1 m hm0 hmn hpmi

/-! ### Lemmas: heap push and pop -/

theorem heapPushGo_perm (lt : String → String → Bool) (l : List String)
    (x : String) : List.Perm (heapPushGo lt l x) (x :: l) := by
  unfold heapPushGo
  exact (heapUp_perm lt (l ++ [x]) l.length (by simp)).trans
    (List.perm_append_singleton x l)

theorem heapPushGo_length (lt : String → String → Bool) (l : List String)
    (x : String) : (heapPushGo lt l x).length = l.length + 1 := by
  have := (heapPushGo_perm lt l x).length_eq
  simpa using this

theorem heapPushGo_isHeap {lt : String → String → Bool} (hA : LtAsym lt)
    (hT : LtTrans lt) {l : List String} (x : String) (h : IsHeap lt l) :
    IsHeap lt (heapPushGo lt l x) := by
  unfold heapPushGo
  apply heapUp_correct hA hT
  · simp
  · intro m hm0 hmlen hmne
    have hmlt : m < l.length := by
      simp only [List.length_append, List.length_cons, List.length_nil] at hmlen
      omega
    unfold heapEdge
    rw [List.getD_append _ _ _ _ hmlt, List.getD_append _ _ _ _ (by omega)]
    exact h m hm0 hmlt
  · intro hj0 c hclen hcc
    exfalso
    simp only [List.length_append, List.length_cons, List.length_nil] at hclen
    omega

theorem getLast?_eq_getD {l : List String} (h : l ≠ []) :
    l.getLast? = some (l.getD (l.length - 1) "") := by
  have hlen : l.length - 1 < l.length := by
    cases l with
    | nil => exact absurd rfl h
    | cons a t => simp
  rw [List.getLast?_eq_getElem?, List.getElem?_eq_getElem hlen,
    List.getD_eq_getElem _ _ hlen]

theorem dropLast_getD {l : List String} {m : Nat} (hm : m < l.length - 1) :
    l.dropLast.getD m "" = l.getD m "" := by
  have h1 : m < l.dropLast.length := by
    rw [List.length_dropLast]
    exact hm
  rw [List.getD_eq_getElem _ _ h1, List.getD_eq_getElem _ _ (by omega)]
  exact List.getElem_dropLast l m h1

theorem heapPopGo_spec {lt : String → String → Bool} (hA : LtAsym lt)
    (hT : LtTrans lt) {l : List String} (hne : l ≠ []) (h : IsHeap lt l) :
    (heapPopGo lt l).1 = some (l.getD 0 "") ∧
    IsHeap lt (heapPopGo lt l).2 ∧
    (heapPopGo lt l).2.length = l.length - 1 ∧
    List.Perm (l.getD 0 "" :: (heapPopGo lt l).2) l := by
  have hlen0 : 0 < l.length := List.length_pos.mpr hne
  set n := l.length - 1 with hn
  have hnl : n < l.length := by omega
  set m := lswap l 0 n with hm
  have hmlen : m.length = l.length := lswap_length l 0 n
  set l1 := heapDown lt m 0 n with hl1
  have hl1len : l1.length = l.length := by
    rw [hl1, heapDown_length lt m 0 n (by omega), hmlen]
  have hl1ne : l1 ≠ [] := by
    intro hc
    rw [hc] at hl1len
    simp at hl1len
    omega
  have hlast : l1.getD n "" = l.getD 0 "" := by
    rw [hl1, heapDown_getD_ge lt m 0 n n le_rfl, hm,
      lswap_getD_snd hlen0 hnl]
  have hfst : (heapPopGo lt l).1 = some (l.getD 0 "") := by
    show l1.getLast? = _
    rw [getLast?_eq_getD hl1ne, hl1len]
    rw [show l.length - 1 = n from rfl, hlast]
  have hheapPre : IsHeapPre lt l1 n := by
    rw [hl1]
    apply heapDown_correct hA hT m 0 n (by omega)
    · intro k hk0 hkn hpk
      unfold heapEdge
      have hk_ne_n : k ≠ n := by omega
      have hpk_lt : (k - 1) / 2 < k := by omega
      rw [hm, lswap_getD_other (by omega) hk_ne_n,
        lswap_getD_other hpk (by omega)]
      exact h k hk0 (by omega)
    · intro hi0
      exact absurd hi0 (by omega)
  have hsnd : IsHeap lt (heapPopGo lt l).2 := by
    show IsHeap lt l1.dropLast
    intro k hk0 hklen
    rw [List.length_dropLast, hl1len] at hklen
    unfold heapEdge
    rw [dropLast_getD (by omega), dropLast_getD (by omega)]
    exact hheapPre k hk0 (by omega)
  have hlen2 : (heapPopGo lt l).2.length = l.length - 1 := by
    show l1.dropLast.length = _
    rw [List.length_dropLast, hl1len]
  have hperm : List.Perm (l.getD 0 "" :: (heapPopGo lt l).2) l := by
    have hsplit : l1.dropLast ++ [l.getD 0 ""] = l1 := by
      have := List.dropLast_append_getLast hl1ne
      rw [List.getLast_eq_getElem] at this
      rw [← List.getD_eq_getElem l1 "" (by omega), hl1len] at this
      rw [show l.length - 1 = n from rfl, hlast] at this
      exact this
    have hp1 : List.Perm (l.getD 0 "" :: l1.dropLast)
        (l1.dropLast ++ [l.getD 0 ""]) :=
      (List.perm_append_singleton _ _).symm
    have hp2 : List.Perm l1 l := by
      rw [hl1]
      exact (heapDown_perm lt m 0 n (by omega)).trans
        (lswap_perm hlen0 hnl)
    have hp1' : List.Perm (l.getD 0 "" :: l1.dropLast) l1 := by
      nth_rewrite 2 [← hsplit]
      exact hp1
    exact hp1'.trans hp2
  exact ⟨hfst, hsnd, hlen2, hperm⟩

/-! ### Lemmas: the bounded-heap selection -/

theorem mem_getD {l : List String} {y : String} (hy : y ∈ l) :
    ∃ j, j < l.length ∧ l.getD j "" = y := by
  obtain ⟨i, hi, he⟩ := List.mem_iff_getElem.mp hy
  exact ⟨i, hi, by rw [List.getD_eq_getElem _ _ hi]; exact he⟩

theorem isHeap_headD_le {lt : String → String → Bool} (hA : LtAsym lt)
    (hT : LtTrans lt) {h : List String} (hH : IsHeap lt h) {y : String}
    (hy : y ∈ h) : lt y (h.headD "") = false := by
  obtain ⟨j, hj, he⟩ := mem_getD hy
  rw [headD_eq_getD, ← he]
  exact isHeapPre_root_le hA hT hH j hj

theorem foldl_push_isHeap {lt : String → String → Bool} (hA : LtAsym lt)
    (hT : LtTrans lt) :
    ∀ (L : List String) (acc : List String), IsHeap lt acc →
      IsHeap lt (L.foldl (heapPushGo lt) acc) := by
  intro L
  induction L with
  | nil => intro acc h; exact h
  | cons x L ih =>
    intro acc h
    exact ih _ (heapPushGo_isHeap hA hT x h)

theorem foldl_push_perm (lt : String → String → Bool) :
    ∀ (L : List String) (acc : List String),
      List.Perm (L.foldl (heapPushGo lt) acc) (acc ++ L) := by
  intro L
  induction L with
  | nil => intro acc; simp
  | cons x L ih =>
    intro acc
    have h1 := ih (heapPushGo lt acc x)
    have h2 : List.Perm (heapPushGo lt acc x ++ L) ((x :: acc) ++ L) :=
      (heapPushGo_perm lt acc x).append_right L
    have h3 : List.Perm ((x :: acc) ++ L) (acc ++ x :: L) := by
      simpa using (@List.perm_middle String x acc L).symm
    exact (h1.trans h2).trans h3

theorem heapFill_isHeap {lt : String → String → Bool} (hA : LtAsym lt)
    (hT : LtTrans lt) (l : List String) (k : Nat) :
    IsHeap lt (heapFill lt l k) := by
  apply foldl_push_isHeap hA hT
  intro j hj0 hjlen
  simp at hjlen

theorem heapFill_perm (lt : String → String → Bool) (l : List String)
    (k : Nat) : List.Perm (heapFill lt l k) (l.take k) := by
  simpa using foldl_push_perm lt (l.take k) []

theorem heapSelectLoop_spec {lt : String → String → Bool} (hA : LtAsym lt)
    (hT : LtTrans lt) :
    ∀ (rest : List String) (h : List String) (r : String)
      (P : Multiset String),
    IsHeap lt h → h ≠ [] → r = h.headD "" →
    (↑h : Multiset String) ≤ P →
    (∀ x ∈ P - (↑h : Multiset String), lt r x = false) →
    (heapSelectLoop lt rest h r).length = h.length ∧
    (↑(heapSelectLoop lt rest h r) : Multiset String) ≤ P + ↑rest ∧
    ∀ x ∈ P + (↑rest : Multiset String) - ↑(heapSelectLoop lt rest h r),
      ∀ y ∈ heapSelectLoop lt rest h r, lt y x = false := by
  intro rest
  induction rest with
  | nil =>
    intro h r P hH hne hr hsub hdom
    refine ⟨rfl, by simpa using hsub, ?_⟩
    intro x hx y hy
    have hdx : lt r x = false := hdom x (by simpa using hx)
    have hry : lt y r = false := by
      rw [hr]
      exact isHeap_headD_le hA hT hH hy
    exact hT x r y hdx hry
  | cons z rest ih =>
    intro h r P hH hne hr hsub hdom
    have hstep : heapSelectLoop lt (z :: rest) h r =
        if lt r z then
          heapSelectLoop lt rest ((heapPopGo lt (heapPushGo lt h z)).2)
            (((heapPopGo lt (heapPushGo lt h z)).2).headD "")
        else heapSelectLoop lt rest h r := rfl
    by_cases hg : lt r z = true
    · rw [hstep, if_pos hg]
      have hH1 : IsHeap lt (heapPushGo lt h z) := heapPushGo_isHeap hA hT z hH
      have hlen1 : (heapPushGo lt h z).length = h.length + 1 :=
        heapPushGo_length lt h z
      have hne1 : heapPushGo lt h z ≠ [] := by
        intro hc
        rw [hc] at hlen1
        simp at hlen1
      obtain ⟨hpop1, hpop2, hpop3, hpop4⟩ := heapPopGo_spec hA hT hne1 hH1
      have hlenh : 0 < h.length := List.length_pos.mpr hne
      have hlen2 : (heapPopGo lt (heapPushGo lt h z)).2.length = h.length := by
        rw [hpop3, hlen1]
        omega
      have hne2 : (heapPopGo lt (heapPushGo lt h z)).2 ≠ [] := by
        intro hc
        rw [hc] at hlen2
        simp at hlen2
        omega
      -- multiset bookkeeping: h1 = popped ::ₘ h2 and h1 = z ::ₘ h
      have hm1 : (↑(heapPushGo lt h z) : Multiset String) =
          (heapPushGo lt h z).getD 0 "" ::ₘ
            ↑(heapPopGo lt (heapPushGo lt h z)).2 := by
        rw [Multiset.cons_coe, Multiset.coe_eq_coe]
        exact hpop4.symm
      have hm2 : (↑(heapPushGo lt h z) : Multiset String) =
          z ::ₘ (↑h : Multiset String) := by
        rw [Multiset.cons_coe, Multiset.coe_eq_coe]
        exact heapPushGo_perm lt h z
      have hr2mem : ((heapPopGo lt (heapPushGo lt h z)).2).headD "" ∈
          heapPushGo lt h z := by
        have h1 : ((heapPopGo lt (heapPushGo lt h z)).2).headD "" ∈
            (heapPopGo lt (heapPushGo lt h z)).2 := headD_mem hne2
        have h2 : ((heapPopGo lt (heapPushGo lt h z)).2).headD "" ∈
            (↑(heapPushGo lt h z) : Multiset String) := by
          rw [hm1]
          exact Multiset.mem_cons_of_mem (Multiset.mem_coe.mpr h1)
        exact Multiset.mem_coe.mp h2
      have hrr2 : lt (((heapPopGo lt (heapPushGo lt h z)).2).headD "") r =
          false := by
        have hmem2 : ((heapPopGo lt (heapPushGo lt h z)).2).headD "" ∈
            z ::ₘ (↑h : Multiset String) := by
          rw [← hm2]
          exact Multiset.mem_coe.mpr hr2mem
        rcases Multiset.mem_cons.mp hmem2 with hz | hh
        · rw [hz]
          exact hA _ _ hg
        · rw [hr]
          exact isHeap_headD_le hA hT hH (Multiset.mem_coe.mp hh)
      have hsub' : (↑(heapPopGo lt (heapPushGo lt h z)).2 : Multiset String) ≤
          P + {z} := by
        calc (↑(heapPopGo lt (heapPushGo lt h z)).2 : Multiset String)
            ≤ (heapPushGo lt h z).getD 0 "" ::ₘ
              ↑(heapPopGo lt (heapPushGo lt h z)).2 :=
              Multiset.le_cons_self _ _
          _ = z ::ₘ (↑h : Multiset String) := by rw [← hm1, hm2]
          _ ≤ z ::ₘ P := Multiset.cons_le_cons z hsub
          _ = P + {z} := by rw [← Multiset.singleton_add]; exact add_comm _ _
      have hkey : P + {z} - ↑(heapPopGo lt (heapPushGo lt h z)).2 =
          (P - ↑h) + {(heapPushGo lt h z).getD 0 ""} := by
        have e1 : P + {z} =
            ((P - ↑h) + {(heapPushGo lt h z).getD 0 ""}) +
              ↑(heapPopGo lt (heapPushGo lt h z)).2 := by
          calc P + {z} = (P - ↑h + ↑h) + {z} := by
                rw [tsub_add_cancel_of_le hsub]
            _ = (P - ↑h) + (↑h + {z}) := by rw [add_assoc]
            _ = (P - ↑h) + (z ::ₘ (↑h : Multiset String)) := by
                rw [← Multiset.singleton_add,
                  add_comm (↑h : Multiset String) ({z} : Multiset String)]
            _ = (P - ↑h) + ((heapPushGo lt h z).getD 0 "" ::ₘ
                ↑(heapPopGo lt (heapPushGo lt h z)).2) := by rw [← hm2, hm1]
            _ = (P - ↑h) + ({(heapPushGo lt h z).getD 0 ""} +
                ↑(heapPopGo lt (heapPushGo lt h z)).2) := by
                rw [Multiset.singleton_add]
            _ = ((P - ↑h) + {(heapPushGo lt h z).getD 0 ""}) +
                ↑(heapPopGo lt (heapPushGo lt h z)).2 := by rw [add_assoc]
        rw [e1]
        exact add_tsub_cancel_right _ _
      have hdom' : ∀ x ∈ P + {z} - ↑(heapPopGo lt (heapPushGo lt h z)).2,
          lt (((heapPopGo lt (heapPushGo lt h z)).2).headD "") x = false := by
        intro x hx
        rw [hkey] at hx
        rcases Multiset.mem_add.mp hx with hxP | hxp
        · exact hT x r _ (hdom x hxP) hrr2
        · rw [Multiset.mem_singleton.mp hxp]
          have := isHeap_headD_le hA hT hH1 hr2mem
          rwa [headD_eq_getD (heapPushGo lt h z)] at this
      obtain ⟨hl1, hl2, hl3⟩ := ih ((heapPopGo lt (heapPushGo lt h z)).2)
        (((heapPopGo lt (heapPushGo lt h z)).2).headD "") (P + {z}) hpop2
        hne2 rfl hsub' hdom'
      have halg : P + {z} + (↑rest : Multiset String) =
          P + ↑(z :: rest) := by
        rw [← Multiset.cons_coe, ← Multiset.singleton_add]
        exact add_assoc _ _ _
      refine ⟨by rw [hl1, hlen2], ?_, ?_⟩
      · rw [← halg]
        exact hl2
      · rw [← halg]
        exact hl3
    · have hgf : lt r z = false := by simpa using hg
      rw [hstep, if_neg hg]
      have hsub' : (↑h : Multiset String) ≤ P + {z} :=
        hsub.trans (by simp)
      have hkey : P + {z} - ↑h = (P - ↑h) + {z} := by
        have e1 : P + {z} = ((P - ↑h) + {z}) + ↑h := by
          calc P + {z} = (P - ↑h + ↑h) + {z} := by
                rw [tsub_add_cancel_of_le hsub]
            _ = ((P - ↑h) + {z}) + ↑h := by
                rw [add_assoc, add_comm (↑h : Multiset String) {z}, add_assoc]
        rw [e1]
        exact add_tsub_cancel_right _ _
      have hdom' : ∀ x ∈ P + {z} - ↑h, lt r x = false := by
        intro x hx
        rw [hkey] at hx
        rcases Multiset.mem_add.mp hx with hxP | hxz
        · exact hdom x hxP
        · rw [Multiset.mem_singleton.mp hxz]
          exact hgf
      obtain ⟨hl1, hl2, hl3⟩ := ih h r (P + {z}) hH hne hr hsub' hdom'
      have halg : P + {z} + (↑rest : Multiset String) =
          P + ↑(z :: rest) := by
        rw [← Multiset.cons_coe, ← Multiset.singleton_add]
        exact add_assoc _ _ _
      refine ⟨hl1, ?_, ?_⟩
      · rw [← halg]
        exact hl2
      · rw [← halg]
        exact hl3

theorem heapSelect_spec {lt : String → String → Bool} (hA : LtAsym lt)
    (hT : LtTrans lt) (l : List String) (k : Nat) (hk : 1 ≤ k) :
    (heapSelect lt l k).length = min k l.length ∧
    (↑(heapSelect lt l k) : Multiset String) ≤ ↑l ∧
    ∀ x ∈ (↑l : Multiset String) - ↑(heapSelect lt l k),
      ∀ y ∈ heapSelect lt l k, lt y x = false := by
  by_cases hl : l.length = 0
  · have hnil : l = [] := List.length_eq_zero.mp hl
    subst hnil
    refine ⟨by simp [heapSelect], by simp [heapSelect], ?_⟩
    intro x hx
    simp [heapSelect] at hx
  · have hs : heapSelect lt l k =
        heapSelectLoop lt (l.drop k) (heapFill lt l k)
          ((heapFill lt l k).headD "") := by
      unfold heapSelect
      rw [if_neg hl]
    have hfillPerm := heapFill_perm lt l k
    have hfillLen : (heapFill lt l k).length = min k l.length := by
      rw [hfillPerm.length_eq, List.length_take]
    have hfillNe : heapFill lt l k ≠ [] := by
      intro hc
      rw [hc] at hfillLen
      simp at hfillLen
      omega
    have hfillCoe : (↑(heapFill lt l k) : Multiset String) = ↑(l.take k) :=
      Multiset.coe_eq_coe.mpr hfillPerm
    obtain ⟨h1, h2, h3⟩ := heapSelectLoop_spec hA hT (l.drop k)
      (heapFill lt l k) ((heapFill lt l k).headD "") (↑(l.take k))
      (heapFill_isHeap hA hT l k) hfillNe rfl (le_of_eq hfillCoe)
      (by
        rw [hfillCoe]
        intro x hx
        simp at hx)
    have htotal : (↑(l.take k) : Multiset String) + ↑(l.drop k) = ↑l := by
      simp
    rw [hs]
    refine ⟨by rw [h1, hfillLen], by rw [← htotal]; exact h2, ?_⟩
    intro x hx y hy
    rw [← htotal] at hx
    exact h3 x hx y hy

/-! ### Claim C5: `HighScores` -/

theorem minHeapLess_asym (sc : String → Nat) : LtAsym (minHeapLess sc) := by
  intro a b h
  simp only [minHeapLess, decide_eq_true_eq] at h
  simp only [minHeapLess, decide_eq_false_iff_not]
  omega

theorem minHeapLess_trans (sc : String → Nat) : LtTrans (minHeapLess sc) := by
  intro a b c h1 h2
  simp only [minHeapLess, decide_eq_false_iff_not] at h1 h2 ⊢
  omega

theorem maxHeapLess_asym (sc : String → Nat) : LtAsym (maxHeapLess sc) := by
  intro a b h
  simp only [maxHeapLess, decide_eq_true_eq] at h
  simp only [maxHeapLess, decide_eq_false_iff_not]
  omega

theorem maxHeapLess_trans (sc : String → Nat) : LtTrans (maxHeapLess sc) := by
  intro a b c h1 h2
  simp only [maxHeapLess, decide_eq_false_iff_not] at h1 h2 ⊢
  omega

theorem sortAsc_perm (sc : String → Nat) (l : List String) :
    List.Perm (sortAsc sc l) l :=
  List.perm_insertionSort _ l

theorem sortAsc_sorted (sc : String → Nat) (l : List String) :
    List.Sorted (fun a b => sc a ≤ sc b) (sortAsc sc l) := by
  haveI : IsTotal String (fun a b => sc a ≤ sc b) :=
    ⟨fun a b => Nat.le_total (sc a) (sc b)⟩
  haveI : IsTrans String (fun a b => sc a ≤ sc b) :=
    ⟨fun a b c h1 h2 => Nat.le_trans h1 h2⟩
  exact List.sorted_insertionSort _ l

/-- C5 amended.  For every scored list and every `k ≥ 1`, `HighScores k`
returns `min(k, length)` nodes of the list sorted in ascending score order;
the returned nodes carry the `k` highest scores — every node left out has a
score less than or equal to the score of every returned node — and when `k`
is at least the length it returns exactly all nodes.  Score ties at the
selection boundary are resolved by the internal heap order, not by
encounter order. -/
theorem c5_highScores_spec (sc : String → Nat) (l : List String) (k : Nat)
    (hk : 1 ≤ k) :
    (HighScores sc l k).length = min k l.length ∧
    List.Sorted (fun a b => sc a ≤ sc b) (HighScores sc l k) ∧
    (↑(HighScores sc l k) : Multiset String) ≤ ↑l ∧
    (∀ x ∈ (↑l : Multiset String) - ↑(HighScores sc l k),
      ∀ y ∈ HighScores sc l k, sc x ≤ sc y) ∧
    (l.length ≤ k → List.Perm (HighScores sc l k) l) := by
  obtain ⟨h1, h2, h3⟩ := heapSelect_spec (minHeapLess_asym sc)
    (minHeapLess_trans sc) l k hk
  have hperm : List.Perm (HighScores sc l k)
      (heapSelect (minHeapLess sc) l k) := sortAsc_perm sc _
  have hcoe : (↑(HighScores sc l k) : Multiset String) =
      ↑(heapSelect (minHeapLess sc) l k) := Multiset.coe_eq_coe.mpr hperm
  refine ⟨by rw [hperm.length_eq, h1], sortAsc_sorted sc _, by rw [hcoe]; exact h2,
    ?_, ?_⟩
  · intro x hx y hy
    rw [hcoe] at hx
    have hy' : y ∈ heapSelect (minHeapLess sc) l k := hperm.mem_iff.mp hy
    have := h3 x hx y hy'
    simp only [minHeapLess, decide_eq_false_iff_not] at this
    omega
  · intro hkl
    have hcard : (↑l : Multiset String).card ≤
        (↑(HighScores sc l k) : Multiset String).card := by
      simp only [Multiset.coe_card]
      rw [hperm.length_eq, h1]
      omega
    have := Multiset.eq_of_le_of_card_le (by rw [hcoe]; exact h2) hcard
    exact Multiset.coe_eq_coe.mp this

unseal heapUp heapDown in
/-- C5: the tie-breaking sentence is refuted in both of its readings.  With
scores a=1, b=1, d=2: `HighScores 2` over `[a,b,d]` returns `[b,d]`, keeping
the later of the tied pair, so ties are not broken in favour of the earlier
encounter; `HighScores 1` over `[a,b]` returns `[a]`, keeping the earlier,
so they are not broken in favour of the later encounter either. -/
theorem c5_counterexample :
    HighScores sc5 ["a", "b", "d"] 2 ≠
      specHighScores sc5 ["a", "b", "d"] 2 false ∧
    HighScores sc5 ["a", "b"] 1 ≠ specHighScores sc5 ["a", "b"] 1 true := by
  decide

theorem c5_highScores_spec_witness :
    1 ≤ 2 ∧
    ((HighScores sc5 ["a", "b", "d"] 2).length =
        min 2 (["a", "b", "d"] : List String).length ∧
      List.Sorted (fun a b => sc5 a ≤ sc5 b) (HighScores sc5 ["a", "b", "d"] 2) ∧
      (↑(HighScores sc5 ["a", "b", "d"] 2) : Multiset String) ≤
        ↑(["a", "b", "d"] : List String) ∧
      (∀ x ∈ (↑(["a", "b", "d"] : List String) : Multiset String) -
          ↑(HighScores sc5 ["a", "b", "d"] 2),
        ∀ y ∈ HighScores sc5 ["a", "b", "d"] 2, sc5 x ≤ sc5 y) ∧
      ((["a", "b", "d"] : List String).length ≤ 2 →
        List.Perm (HighScores sc5 ["a", "b", "d"] 2)
          (["a", "b", "d"] : List String))) :=
  ⟨by decide, c5_highScores_spec sc5 ["a", "b", "d"] 2 (by decide)⟩

/-! ### Claim C3: the score-promotion skip condition -/

theorem freePromote_le (s : Shard) (l : List String) :
    (freePromote s l).2 ≤ l.length := by
  induction l generalizing s with
  | nil => simp [freePromote]
  | cons c rest ih =>
    rw [freePromote]
    by_cases hc : scoreOf s c < 2
    · rw [if_pos hc]
      simp
    · rw [if_neg hc]
      have := ih (promoteOne s c)
      simp only [List.length_cons]
      omega

theorem scorePromoteLoop_le (l : List String) (s : Shard) (b : List String)
    (p : Nat) : p ≤ (scorePromoteLoop s l b p).2 := by
  induction l generalizing s b p with
  | nil => simp [scorePromoteLoop]
  | cons c rest ih =>
    rw [scorePromoteLoop]
    by_cases hb : b.isEmpty
    · rw [if_pos hb]
      exact ih s b p
    · rw [if_neg hb]
      cases hscan : scanBottom s (scoreOf s c) b with
      | some i =>
        simp only []
        exact Nat.le_trans (Nat.le_succ p) (ih _ _ _)
      | none => simp

unseal heapUp heapDown in
/-- C3: the skip condition compares the lowest MFU score against the
*highest* remaining candidate score, not the lowest.  On the shard `s3`
(MRU `[a,b,c]` scoring `5,1,0`, capacity 1; full MFU `[m3,m4]` scoring
`3,4`) free-slot promotion promotes nothing, the low-scores list is
nonempty and the lowest MFU score (3) is ≥ the lowest remaining candidate
score (1), so the claim says score-based promotion is skipped — yet one
node is promoted by score and `m3` is demoted to the MRU. -/
theorem c3_counterexample :
    (promoteEvictCore s3).2.1 = 0 ∧
    LowScores (scoreOf s3) s3.mfu 2 ≠ [] ∧
    scoreOf s3 ((HighScores (scoreOf s3) s3.mru 2).headD "") ≤
      scoreOf s3 ((LowScores (scoreOf s3) s3.mfu 2).headD "") ∧
    (promoteEvictCore s3).2.2 = 1 ∧
    (mapLookup (promoteEvict s3).cacheMap "m3").map Entry.state = some 0 := by
  decide

/-- C3 amended.  When the MRU overflows, the MFU capacity is nonzero and
free-slot promotion could not place every overflow candidate, score-based
promotion is skipped (no node is promoted by score) exactly when the MFU
low-scores list is empty or the lowest MFU score is greater than or equal
to the score of the *highest-scored remaining candidate* — the first
unpromoted entry of the descending candidate list (`cands.getD promoted`),
not the lowest-scored one as claimed. -/
theorem c3_skip_iff (s s1 : Shard) (ov promoted : Nat)
    (cands bottomMFU : List String)
    (hovpos : s.mruCap < s.mru.length)
    (hov : ov = s.mru.length - s.mruCap)
    (hmfu : s.mfuCap ≠ 0)
    (hcands : cands = (HighScores (scoreOf s) s.mru ov).reverse)
    (hfp : freePromote s (cands.take
        (if ov ≤ s.mfuCap - s.mfu.length then ov
         else s.mfuCap - s.mfu.length)) = (s1, promoted))
    (hnotall : promoted ≠ ov)
    (hbot : bottomMFU = LowScores (scoreOf s1) s1.mfu (ov - promoted)) :
    (promoteEvictCore s).2.2 = 0 ↔
      (bottomMFU = [] ∨
        scoreOf s1 (cands.getD promoted "") ≤
          scoreOf s1 (bottomMFU.headD "")) := by
  have hneg : ¬((s.mru.length : Int) - (s.mruCap : Int) ≤ 0) := by omega
  have hovInt : ((s.mru.length : Int) - (s.mruCap : Int)).toNat = ov := by
    omega
  have hple : promoted ≤ ov := by
    have h1 := freePromote_le s (cands.take
      (if ov ≤ s.mfuCap - s.mfu.length then ov
       else s.mfuCap - s.mfu.length))
    rw [hfp] at h1
    simp only [List.length_take] at h1
    by_cases hc : ov ≤ s.mfuCap - s.mfu.length
    · rw [if_pos hc] at h1
      omega
    · rw [if_neg hc] at h1
      omega
  have hplt : promoted < ov := lt_of_le_of_ne hple hnotall
  have hq : promoteEvictCore s =
      (let sp := if bottomMFU.isEmpty ∨
            scoreOf s1 (cands.getD promoted "") ≤
              scoreOf s1 (bottomMFU.headD "") then (s1, 0)
          else scorePromoteLoop s1 (cands.drop promoted) bottomMFU 0
       let toEvict := ov - promoted - sp.2
       if 0 < toEvict then (evictFromMRUTail sp.1 toEvict, promoted, sp.2)
       else (sp.1, promoted, sp.2)) := by
    simp only [promoteEvictCore]
    rw [if_neg hneg, hovInt, ← hcands]
    rw [if_neg hmfu, hfp, if_neg hnotall, ← hbot]
  rw [hq]
  by_cases hcond : bottomMFU.isEmpty ∨
      scoreOf s1 (cands.getD promoted "") ≤ scoreOf s1 (bottomMFU.headD "")
  · rw [if_pos hcond]
    simp only []
    rw [if_pos (by omega : 0 < ov - promoted - 0)]
    simp only [List.isEmpty_iff] at hcond
    exact iff_of_true rfl hcond
  · rw [if_neg hcond]
    have hcond' := hcond
    rw [not_or] at hcond'
    obtain ⟨hne, hgt⟩ := hcond'
    have hnenil : bottomMFU ≠ [] := by
      intro hc
      exact hne (by rw [hc]; rfl)
    have hlt : scoreOf s1 (bottomMFU.headD "") <
        scoreOf s1 (cands.getD promoted "") := Nat.lt_of_not_le hgt
    have hclen : cands.length = ov := by
      rw [hcands, List.length_reverse]
      have hhs := heapSelect_spec (minHeapLess_asym (scoreOf s))
        (minHeapLess_trans (scoreOf s)) s.mru ov (by omega)
      rw [HighScores, (sortAsc_perm (scoreOf s) _).length_eq, hhs.1]
      omega
    have hpc : promoted < cands.length := by omega
    have hdrop : cands.drop promoted =
        cands.getD promoted "" :: cands.drop (promoted + 1) := by
      rw [List.drop_eq_getElem_cons hpc]
      rw [List.getD_eq_getElem cands "" hpc]
    obtain ⟨hb, bt, hbeq⟩ := List.exists_cons_of_ne_nil hnenil
    have hsp : 1 ≤ (scorePromoteLoop s1 (cands.drop promoted) bottomMFU 0).2 := by
      rw [hdrop, scorePromoteLoop]
      rw [if_neg hne]
      have hhead : bottomMFU.headD "" = hb := by rw [hbeq]; rfl
      have hscan : scanBottom s1 (scoreOf s1 (cands.getD promoted ""))
          bottomMFU = some 0 := by
        rw [hbeq, scanBottom]
        rw [if_pos (by rw [← hhead]; exact hlt)]
      rw [hscan]
      simp only []
      exact scorePromoteLoop_le _ _ _ 1
    simp only []
    have hres : (if 0 < ov - promoted -
          (scorePromoteLoop s1 (cands.drop promoted) bottomMFU 0).2 then
        (evictFromMRUTail
            (scorePromoteLoop s1 (cands.drop promoted) bottomMFU 0).1
            (ov - promoted -
              (scorePromoteLoop s1 (cands.drop promoted) bottomMFU 0).2),
          promoted,
          (scorePromoteLoop s1 (cands.drop promoted) bottomMFU 0).2)
      else ((scorePromoteLoop s1 (cands.drop promoted) bottomMFU 0).1,
        promoted,
        (scorePromoteLoop s1 (cands.drop promoted) bottomMFU 0).2)).2.2 =
        (scorePromoteLoop s1 (cands.drop promoted) bottomMFU 0).2 := by
      by_cases ht : 0 < ov - promoted -
          (scorePromoteLoop s1 (cands.drop promoted) bottomMFU 0).2
      · rw [if_pos ht]
      · rw [if_neg ht]
    rw [hres]
    constructor
    · intro h0
      omega
    · intro hor
      rcases hor with h1 | h2
      · exact absurd h1 hnenil
      · omega

unseal heapUp heapDown in
theorem c3_skip_iff_witness :
    (promoteEvictCore s3).2.2 = 0 ↔
      ((["m3", "m4"] : List String) = [] ∨
        scoreOf s3 ((["a", "b"] : List String).getD 0 "") ≤
          scoreOf s3 ((["m3", "m4"] : List String).headD "")) :=
  c3_skip_iff s3 s3 2 0 ["a", "b"] ["m3", "m4"] (by decide) (by decide)
    (by decide) (by decide) (by decide) (by decide) (by decide)

/-! ### Claim C4: the MFU bound -/

theorem erase_length_le (l : List String) (a : String) :
    (l.erase a).length ≤ l.length :=
  (List.erase_sublist a l).length_le

theorem setRaw_mfu (s : Shard) (k : String) (v : GoVal) :
    (SetRaw s k v).2.mfu = s.mfu ∧ (SetRaw s k v).2.mfuCap = s.mfuCap := by
  refine ⟨?_, ?_⟩ <;>
    (simp only [SetRaw]
     split <;> split <;> rfl)

theorem setTTLRaw_mfu (s : Shard) (k : String) (v : GoVal) (t now : Int) :
    (SetTTLRaw s k v t now).2.mfu = s.mfu ∧
      (SetTTLRaw s k v t now).2.mfuCap = s.mfuCap := by
  refine ⟨?_, ?_⟩ <;>
    (simp only [SetTTLRaw]
     split <;> split <;> (try split) <;> rfl)

theorem get_mfu (s : Shard) (k : String) :
    (Get s k).2.mfu = s.mfu ∧ (Get s k).2.mfuCap = s.mfuCap := by
  refine ⟨?_, ?_⟩ <;>
    (simp only [Get]
     split <;> rfl)

theorem del_mfu (s : Shard) (k : String) :
    (Del s k).mfu.length ≤ s.mfu.length ∧ (Del s k).mfuCap = s.mfuCap := by
  simp only [Del]
  split
  · exact ⟨Nat.le_refl _, rfl⟩
  · refine ⟨?_, ?_⟩ <;>
      (split <;> (try split) <;>
        first
          | exact Nat.le_refl _
          | exact erase_length_le _ _
          | rfl)

theorem decrementTTLCount_mfu (s : Shard) (n : Nat) :
    (decrementTTLCount s n).mfu = s.mfu ∧
      (decrementTTLCount s n).mfuCap = s.mfuCap := by
  refine ⟨?_, ?_⟩ <;>
    (simp only [decrementTTLCount]
     split <;> rfl)

theorem evictTailOnce_mfu (s : Shard) :
    (evictTailOnce s).mfu = s.mfu ∧ (evictTailOnce s).mfuCap = s.mfuCap := by
  refine ⟨?_, ?_⟩ <;>
    (simp only [evictTailOnce]
     split <;> rfl)

theorem evictTailLoop_mfu (n : Nat) (s : Shard) :
    (evictTailLoop s n).mfu = s.mfu ∧ (evictTailLoop s n).mfuCap = s.mfuCap := by
  induction n generalizing s with
  | zero => exact ⟨rfl, rfl⟩
  | succ m ih =>
    rw [evictTailLoop]
    have h1 := evictTailOnce_mfu s
    have h2 := ih (evictTailOnce s)
    exact ⟨h2.1.trans h1.1, h2.2.trans h1.2⟩

theorem evictFromMRUTail_mfu (s : Shard) (n : Nat) :
    (evictFromMRUTail s n).mfu = s.mfu ∧
      (evictFromMRUTail s n).mfuCap = s.mfuCap := by
  simp only [evictFromMRUTail]
  have h1 := evictTailLoop_mfu n s
  have h2 := decrementTTLCount_mfu (evictTailLoop s n)
    (s.ttlMap.length - (evictTailLoop s n).ttlMap.length)
  exact ⟨(h2.1).trans h1.1, (h2.2).trans h1.2⟩

theorem freePromote_mfu (s : Shard) (l : List String) :
    (freePromote s l).1.mfu.length = s.mfu.length + (freePromote s l).2 ∧
      (freePromote s l).1.mfuCap = s.mfuCap := by
  induction l generalizing s with
  | nil => exact ⟨rfl, rfl⟩
  | cons c rest ih =>
    rw [freePromote]
    by_cases hc : scoreOf s c < 2
    · rw [if_pos hc]
      exact ⟨rfl, rfl⟩
    · rw [if_neg hc]
      have h1 := ih (promoteOne s c)
      have h2 : (promoteOne s c).mfu.length = s.mfu.length + 1 := by
        simp [promoteOne]
      refine ⟨?_, h1.2⟩
      simp only []
      rw [h1.1, h2]
      omega

theorem scanBottom_lt (s : Shard) (cs : Nat) (b : List String) :
    ∀ i, scanBottom s cs b = some i → i < b.length := by
  induction b with
  | nil => intro i h; simp [scanBottom] at h
  | cons x rest ih =>
    intro i h
    rw [scanBottom] at h
    by_cases hx : scoreOf s x < cs
    · rw [if_pos hx] at h
      cases h
      simp
    · rw [if_neg hx] at h
      cases hrec : scanBottom s cs rest with
      | none => rw [hrec] at h; simp at h
      | some j =>
        rw [hrec] at h
        simp at h
        have := ih j hrec
        simp only [List.length_cons]
        omega

theorem coe_eraseIdx_add (l : List String) :
    ∀ i, i < l.length →
      (↑(l.eraseIdx i) : Multiset String) + {l.getD i ""} = ↑l := by
  induction l with
  | nil => intro i h; simp at h
  | cons a t ih =>
    intro i h
    cases i with
    | zero =>
      show (↑t : Multiset String) + {a} = ↑(a :: t)
      rw [← Multiset.cons_coe, ← Multiset.singleton_add]
      exact add_comm _ _
    | succ j =>
      have hj : j < t.length := by
        simp only [List.length_cons] at h
        omega
      show (↑(a :: t.eraseIdx j) : Multiset String) + {t.getD j ""} = ↑(a :: t)
      rw [← Multiset.cons_coe, ← Multiset.cons_coe,
        ← Multiset.singleton_add, ← Multiset.singleton_add]
      rw [add_assoc, ih j hj]

theorem scorePromoteLoop_mfu (l : List String) :
    ∀ (s : Shard) (b : List String) (p : Nat),
      (↑b : Multiset String) ≤ ↑s.mfu →
      (scorePromoteLoop s l b p).1.mfu.length = s.mfu.length ∧
        (scorePromoteLoop s l b p).1.mfuCap = s.mfuCap := by
  induction l with
  | nil => intro s b p _; exact ⟨rfl, rfl⟩
  | cons c rest ih =>
    intro s b p hb
    rw [scorePromoteLoop]
    by_cases hbe : b.isEmpty
    · rw [if_pos hbe]
      exact ih s b p hb
    · rw [if_neg hbe]
      cases hscan : scanBottom s (scoreOf s c) b with
      | none => exact ⟨rfl, rfl⟩
      | some i =>
        simp only []
        have hi := scanBottom_lt s (scoreOf s c) b i hscan
        have hmb : b.getD i "" ∈ b := getD_mem hi
        have hmm : b.getD i "" ∈ s.mfu := by
          have := Multiset.mem_of_le hb (Multiset.mem_coe.mpr hmb)
          exact Multiset.mem_coe.mp this
        have hs2mfu : (promoteOne (demoteOne s (b.getD i "")) c).mfu =
            s.mfu.erase (b.getD i "") ++ [c] := rfl
        have hblen : 1 ≤ s.mfu.length := List.length_pos_of_mem hmm
        have herase : (s.mfu.erase (b.getD i "")).length = s.mfu.length - 1 :=
          List.length_erase_of_mem hmm
        have hb' : (↑(b.eraseIdx i) : Multiset String) ≤
            ↑(promoteOne (demoteOne s (b.getD i "")) c).mfu := by
          rw [hs2mfu]
          have h1 : (↑(b.eraseIdx i) : Multiset String) + {b.getD i ""} =
              ↑b := coe_eraseIdx_add b i hi
          have h2 : (↑(s.mfu.erase (b.getD i "")) : Multiset String) +
              {b.getD i ""} = ↑s.mfu := by
            have hp := List.perm_cons_erase hmm
            rw [Multiset.coe_eq_coe.mpr hp, ← Multiset.cons_coe,
              ← Multiset.singleton_add]
            exact add_comm _ _
          have h3 : (↑(b.eraseIdx i) : Multiset String) + {b.getD i ""} ≤
              ↑(s.mfu.erase (b.getD i "")) + {b.getD i ""} := by
            rw [h1, h2]
            exact hb
          have h4 := (add_le_add_iff_right
            ({b.getD i ""} : Multiset String)).mp h3
          calc (↑(b.eraseIdx i) : Multiset String)
              ≤ ↑(s.mfu.erase (b.getD i "")) := h4
            _ ≤ ↑(s.mfu.erase (b.getD i "")) + ↑([c] : List String) :=
                Multiset.le_add_right _ _
            _ = ↑(s.mfu.erase (b.getD i "") ++ [c]) := by
                rw [← Multiset.coe_add]
        have hrec := ih (promoteOne (demoteOne s (b.getD i "")) c)
          (b.eraseIdx i) (p + 1) hb'
        refine ⟨?_, ?_⟩
        · rw [hrec.1, hs2mfu]
          simp only [List.length_append, List.length_cons, List.length_nil]
          omega
        · rw [hrec.2]
          rfl

theorem lowScores_le (sc : String → Nat) (l : List String) (k : Nat)
    (hk : 1 ≤ k) : (↑(LowScores sc l k) : Multiset String) ≤ ↑l := by
  have hsel := heapSelect_spec (maxHeapLess_asym sc) (maxHeapLess_trans sc)
    l.reverse k hk
  rw [LowScores]
  have hp := sortAsc_perm sc (heapSelect (maxHeapLess sc) l.reverse k)
  rw [Multiset.coe_eq_coe.mpr hp]
  calc (↑(heapSelect (maxHeapLess sc) l.reverse k) : Multiset String)
      ≤ ↑l.reverse := hsel.2.1
    _ = ↑l := Multiset.coe_reverse l

theorem promoteEvict_mfu (s : Shard) (h : s.mfu.length ≤ s.mfuCap) :
    (promoteEvict s).mfu.length ≤ s.mfuCap ∧
      (promoteEvict s).mfuCap = s.mfuCap := by
  by_cases h1 : ((s.mru.length : Int) - (s.mruCap : Int)) ≤ 0
  · simp only [promoteEvict, promoteEvictCore]
    rw [if_pos h1]
    exact ⟨h, rfl⟩
  · simp only [promoteEvict, promoteEvictCore]
    rw [if_neg h1]
    by_cases h2 : s.mfuCap = 0
    · rw [if_pos h2]
      have he := evictFromMRUTail_mfu s
        ((s.mru.length : Int) - (s.mruCap : Int)).toNat
      exact ⟨by rw [he.1] at *; exact h, he.2⟩
    · rw [if_neg h2]
      generalize ((s.mru.length : Int) - (s.mruCap : Int)).toNat = ov
      generalize (HighScores (scoreOf s) s.mru ov).reverse = cands
      generalize hfp : freePromote s (cands.take
        (if ov ≤ s.mfuCap - s.mfu.length then ov
         else s.mfuCap - s.mfu.length)) = fp
      have hfree := freePromote_mfu s (cands.take
        (if ov ≤ s.mfuCap - s.mfu.length then ov
         else s.mfuCap - s.mfu.length))
      rw [hfp] at hfree
      have hfle := freePromote_le s (cands.take
        (if ov ≤ s.mfuCap - s.mfu.length then ov
         else s.mfuCap - s.mfu.length))
      rw [hfp] at hfle
      have hcle : (if ov ≤ s.mfuCap - s.mfu.length then ov
          else s.mfuCap - s.mfu.length) ≤ s.mfuCap - s.mfu.length := by
        split <;> omega
      have hp2 : fp.2 ≤ s.mfuCap - s.mfu.length := by
        have := List.length_take
          (if ov ≤ s.mfuCap - s.mfu.length then ov
           else s.mfuCap - s.mfu.length) cands
        omega
      have hs1len : fp.1.mfu.length ≤ s.mfuCap := by
        rw [hfree.1]
        omega
      by_cases h3 : fp.2 = ov
      · rw [if_pos h3]
        exact ⟨hs1len, hfree.2⟩
      · rw [if_neg h3]
        generalize hbot : LowScores (scoreOf fp.1) fp.1.mfu (ov - fp.2) =
          bottom
        have hp2ov : fp.2 ≤ ov := by
          have := List.length_take
            (if ov ≤ s.mfuCap - s.mfu.length then ov
             else s.mfuCap - s.mfu.length) cands
          by_cases hco : ov ≤ s.mfuCap - s.mfu.length
          · rw [if_pos hco] at hfle this
            omega
          · rw [if_neg hco] at hfle this
            omega
        have hble : (↑bottom : Multiset String) ≤ ↑fp.1.mfu := by
          rw [← hbot]
          exact lowScores_le _ _ _ (by omega)
        by_cases h4 : bottom.isEmpty ∨
            scoreOf fp.1 (cands.getD fp.2 "") ≤ scoreOf fp.1 (bottom.headD "")
        · rw [if_pos h4]
          split
          · have he := evictFromMRUTail_mfu fp.1 (ov - fp.2 - (fp.1, 0).2)
            exact ⟨by rw [he.1]; exact hs1len, he.2.trans hfree.2⟩
          · exact ⟨hs1len, hfree.2⟩
        · rw [if_neg h4]
          have hsp := scorePromoteLoop_mfu (cands.drop fp.2) fp.1 bottom 0 hble
          split
          · have he := evictFromMRUTail_mfu
              (scorePromoteLoop fp.1 (cands.drop fp.2) bottom 0).1
              (ov - fp.2 -
                (scorePromoteLoop fp.1 (cands.drop fp.2) bottom 0).2)
            refine ⟨?_, he.2.trans (hsp.2.trans hfree.2)⟩
            rw [he.1, hsp.1]
            exact hs1len
          · refine ⟨?_, hsp.2.trans hfree.2⟩
            rw [hsp.1]
            exact hs1len

theorem evictTTLFold_mfu (l : List String) :
    ∀ (acc : Shard × Nat),
      (l.foldl (fun (acc : Shard × Nat) k =>
          match mapLookup acc.1.cacheMap k with
          | some e =>
            ({ acc.1 with
                cacheMap := mapDelete acc.1.cacheMap k
                ttlMap := mapDelete acc.1.ttlMap k
                mru := if e.state = 0 then acc.1.mru.erase k else acc.1.mru
                mfu := if e.state = 1 then acc.1.mfu.erase k else acc.1.mfu },
              acc.2 + 1)
          | none => acc) acc).1.mfu.length ≤ acc.1.mfu.length ∧
        (l.foldl (fun (acc : Shard × Nat) k =>
          match mapLookup acc.1.cacheMap k with
          | some e =>
            ({ acc.1 with
                cacheMap := mapDelete acc.1.cacheMap k
                ttlMap := mapDelete acc.1.ttlMap k
                mru := if e.state = 0 then acc.1.mru.erase k else acc.1.mru
                mfu := if e.state = 1 then acc.1.mfu.erase k else acc.1.mfu },
              acc.2 + 1)
          | none => acc) acc).1.mfuCap = acc.1.mfuCap := by
  induction l with
  | nil => intro acc; exact ⟨Nat.le_refl _, rfl⟩
  | cons a rest ih =>
    intro acc
    rw [List.foldl_cons]
    cases hm : mapLookup acc.1.cacheMap a with
    | none =>
      simp only [hm]
      exact ih acc
    | some e =>
      simp only [hm]
      have hr := ih ({ acc.1 with
          cacheMap := mapDelete acc.1.cacheMap a
          ttlMap := mapDelete acc.1.ttlMap a
          mru := if e.state = 0 then acc.1.mru.erase a else acc.1.mru
          mfu := if e.state = 1 then acc.1.mfu.erase a else acc.1.mfu },
        acc.2 + 1)
      refine ⟨le_trans hr.1 ?_, hr.2⟩
      simp only []
      split
      · exact erase_length_le _ _
      · exact Nat.le_refl _

theorem evictTTL_mfu (s : Shard) (now : Int) :
    (evictTTL s now).1.mfu.length ≤ s.mfu.length ∧
      (evictTTL s now).1.mfuCap = s.mfuCap := by
  by_cases hc : s.ttlCount = 0
  · simp only [evictTTL]
    rw [if_pos hc]
    exact ⟨Nat.le_refl _, rfl⟩
  · simp only [evictTTL]
    rw [if_neg hc]
    have hf := evictTTLFold_mfu
      ((s.ttlMap.filter (fun p => decide (p.2 < now))).map Prod.fst) (s, 0)
    constructor
    · rw [(decrementTTLCount_mfu _ _).1]
      exact hf.1
    · rw [(decrementTTLCount_mfu _ _).2]
      exact hf.2

theorem stepShard_mfu_bound (s : Shard) (op : Op)
    (h : s.mfu.length ≤ s.mfuCap) :
    (stepShard s op).mfu.length ≤ (stepShard s op).mfuCap := by
  cases op with
  | set k v =>
    have hf := setRaw_mfu s k v
    show (SetRaw s k v).2.mfu.length ≤ (SetRaw s k v).2.mfuCap
    rw [hf.1, hf.2]
    exact h
  | setTTL k v t now =>
    have hf := setTTLRaw_mfu s k v t now
    show (SetTTLRaw s k v t now).2.mfu.length ≤ (SetTTLRaw s k v t now).2.mfuCap
    rw [hf.1, hf.2]
    exact h
  | get k =>
    have hf := get_mfu s k
    show (Get s k).2.mfu.length ≤ (Get s k).2.mfuCap
    rw [hf.1, hf.2]
    exact h
  | del k =>
    have hf := del_mfu s k
    show (Del s k).mfu.length ≤ (Del s k).mfuCap
    rw [hf.2]
    omega
  | flushMru => exact h
  | flushMfu => exact Nat.zero_le _
  | flushAll now => exact Nat.zero_le _
  | evictTTL now =>
    have hf := evictTTL_mfu s now
    show (Bicache.evictTTL s now).1.mfu.length ≤
      (Bicache.evictTTL s now).1.mfuCap
    rw [hf.2]
    omega
  | promoteEvict =>
    have hf := promoteEvict_mfu s h
    show (Bicache.promoteEvict s).mfu.length ≤ (Bicache.promoteEvict s).mfuCap
    rw [hf.2]
    exact hf.1

/-- C4: on every shard reachable by any sequence of public operations and
maintenance passes, the MFU list never exceeds the MFU capacity.  The two
mechanisms the claim cites are proved as the supporting lemmas: free-slot
promotion grows the MFU by exactly the promotion count, which is bounded by
the free capacity (`freePromote_mfu`, `freePromote_le`), and each
score-based promotion removes one MFU member before appending one,
preserving the MFU length (`scorePromoteLoop_mfu`). -/
theorem c4_mfu_bound (s : Shard) (h : Reach s) :
    s.mfu.length ≤ s.mfuCap := by
  induction h with
  | init mfuCap mruCap noOv now => exact Nat.zero_le _
  | step op hs ih => exact stepShard_mfu_bound _ op ih

theorem c4_mfu_bound_witness :
    (stepShard (initShard 2 1 false 0) (.set "a" (some "v"))).mfu.length ≤
      (stepShard (initShard 2 1 false 0) (.set "a" (some "v"))).mfuCap :=
  c4_mfu_bound _ (Reach.step _ (Reach.init 2 1 false 0))

/-! ### Claim C2: the TTL-subset invariant -/

theorem isSome_adjust (m : List (String × β)) (k k' : String) (f : β → β) :
    (mapLookup (mapAdjust m k f) k').isSome = (mapLookup m k').isSome := by
  by_cases h : k' = k
  · subst h
    rw [mapLookup_adjust_self]
    cases mapLookup m k' <;> rfl
  · rw [mapLookup_adjust_ne m k k' f h]

theorem lookup_filter_isSome (m : List (String × β)) (pr : String × β → Bool)
    (k : String) (h : (mapLookup (m.filter pr) k).isSome = true) :
    (mapLookup m k).isSome = true := by
  induction m with
  | nil => exact h
  | cons p t ih =>
    obtain ⟨a, b⟩ := p
    rw [List.filter_cons] at h
    rw [mapLookup]
    by_cases hpr : pr (a, b) = true
    · rw [if_pos hpr, mapLookup] at h
      by_cases hak : a = k
      · rw [if_pos hak]
        rfl
      · rw [if_neg hak] at h ⊢
        exact ih h
    · rw [if_neg hpr] at h
      by_cases hak : a = k
      · rw [if_pos hak]
        rfl
      · rw [if_neg hak]
        exact ih h

theorem lookup_filter_key (m : List (String × β)) (q : String → Bool)
    (k : String)
    (h : (mapLookup (m.filter (fun p => q p.1)) k).isSome = true) :
    q k = true := by
  induction m with
  | nil =>
    rw [List.filter_nil] at h
    exact absurd h Bool.false_ne_true
  | cons p t ih =>
    obtain ⟨a, b⟩ := p
    rw [List.filter_cons] at h
    by_cases hq : q a = true
    · rw [if_pos hq, mapLookup] at h
      by_cases hak : a = k
      · subst hak
        exact hq
      · rw [if_neg hak] at h
        exact ih h
    · rw [if_neg hq] at h
      exact ih h

theorem lookup_filter_entry (m : List (String × β)) (pr : String × β → Bool)
    (k : String) (e : β) (hm : mapLookup m k = some e)
    (hp : pr (k, e) = true) :
    (mapLookup (m.filter pr) k).isSome = true := by
  induction m with
  | nil => cases hm
  | cons p t ih =>
    obtain ⟨a, b⟩ := p
    rw [mapLookup] at hm
    rw [List.filter_cons]
    by_cases hak : a = k
    · rw [if_pos hak] at hm
      injection hm with hbe
      subst hbe
      subst hak
      rw [if_pos hp, mapLookup, if_pos rfl]
      rfl
    · rw [if_neg hak] at hm
      by_cases hpr : pr (a, b) = true
      · rw [if_pos hpr, mapLookup, if_neg hak]
        exact ih hm
      · rw [if_neg hpr]
        exact ih hm

theorem ttl_insert_lookup (s : Shard) (k k' : String) (x : Int)
    (h : TTLSub s) (hincache : (mapLookup s.cacheMap k).isSome = true)
    (hk' : (mapLookup (mapInsert s.ttlMap k x) k').isSome = true) :
    (mapLookup s.cacheMap k').isSome = true := by
  by_cases hkk : k' = k
  · subst hkk
    exact hincache
  · apply h k'
    rwa [mapLookup_insert_ne s.ttlMap k k' x hkk] at hk'

theorem ttlSub_setRaw (s : Shard) (k : String) (v : GoVal) (h : TTLSub s) :
    TTLSub (SetRaw s k v).2 := by
  intro k' hk'
  cases hm : mapLookup s.cacheMap k with
  | none =>
    simp only [SetRaw, hm] at hk' ⊢
    by_cases hc : s.noOverflow = true ∧ s.mruCap ≤ s.mru.length
    · rw [if_pos hc] at hk' ⊢
      exact h k' hk'
    · rw [if_neg hc] at hk' ⊢
      rw [mapLookup]
      by_cases hkk : k = k'
      · rw [if_pos hkk]
        rfl
      · rw [if_neg hkk]
        exact h k' hk'
  | some e =>
    simp only [SetRaw, hm] at hk' ⊢
    by_cases hst : e.state = 0
    · rw [if_pos hst] at hk' ⊢
      rw [isSome_adjust]
      exact h k' hk'
    · rw [if_neg hst] at hk' ⊢
      rw [isSome_adjust]
      exact h k' hk'

theorem ttlSub_setTTLRaw (s : Shard) (k : String) (v : GoVal) (t now : Int)
    (hsucc : (SetTTLRaw s k v t now).1 = true) (h : TTLSub s) :
    TTLSub (SetTTLRaw s k v t now).2 := by
  intro k' hk'
  cases hm : mapLookup s.cacheMap k with
  | none =>
    by_cases hc : s.noOverflow = true ∧ s.mruCap ≤ s.mru.length
    · exfalso
      simp only [SetTTLRaw, hm, if_pos hc] at hsucc
      exact Bool.false_ne_true hsucc
    · simp only [SetTTLRaw, hm, if_neg hc] at hk' ⊢
      by_cases hexp : now + t < s.nearestExpire
      · rw [if_pos hexp] at hk' ⊢
        rw [mapLookup]
        by_cases hkk : k = k'
        · rw [if_pos hkk]
          rfl
        · rw [if_neg hkk]
          apply h k'
          rwa [mapLookup_insert_ne s.ttlMap k k' (now + t)
            (fun hcon => hkk hcon.symm)] at hk'
      · rw [if_neg hexp] at hk' ⊢
        rw [mapLookup]
        by_cases hkk : k = k'
        · rw [if_pos hkk]
          rfl
        · rw [if_neg hkk]
          apply h k'
          rwa [mapLookup_insert_ne s.ttlMap k k' (now + t)
            (fun hcon => hkk hcon.symm)] at hk'
  | some e =>
    have hincache : (mapLookup s.cacheMap k).isSome = true := by
      rw [hm]
      rfl
    simp only [SetTTLRaw, hm] at hk' ⊢
    by_cases hst : e.state = 0
    · rw [if_pos hst] at hk' ⊢
      by_cases hexp : now + t < s.nearestExpire
      · rw [if_pos hexp] at hk' ⊢
        rw [isSome_adjust]
        exact ttl_insert_lookup s k k' (now + t) h hincache hk'
      · rw [if_neg hexp] at hk' ⊢
        rw [isSome_adjust]
        exact ttl_insert_lookup s k k' (now + t) h hincache hk'
    · rw [if_neg hst] at hk' ⊢
      by_cases hexp : now + t < s.nearestExpire
      · rw [if_pos hexp] at hk' ⊢
        rw [isSome_adjust]
        exact ttl_insert_lookup s k k' (now + t) h hincache hk'
      · rw [if_neg hexp] at hk' ⊢
        rw [isSome_adjust]
        exact ttl_insert_lookup s k k' (now + t) h hincache hk'

theorem ttlSub_get (s : Shard) (k : String) (h : TTLSub s) :
    TTLSub (Get s k).2 := by
  intro k' hk'
  cases hm : mapLookup s.cacheMap k with
  | none =>
    simp only [Get, hm] at hk' ⊢
    exact h k' hk'
  | some e =>
    simp only [Get, hm, bumpScore] at hk' ⊢
    rw [isSome_adjust]
    exact h k' hk'

theorem ttlSub_del (s : Shard) (k : String) (h : TTLSub s) :
    TTLSub (Del s k) := by
  intro k' hk'
  cases hm : mapLookup s.cacheMap k with
  | none =>
    simp only [Del, hm] at hk' ⊢
    exact h k' hk'
  | some e =>
    simp only [Del, hm] at hk' ⊢
    by_cases hkk : k' = k
    · subst hkk
      exfalso
      have : mapLookup (mapDelete s.ttlMap k') k' = none :=
        mapLookup_delete_self s.ttlMap k'
      by_cases hst : e.state = 0
      · rw [if_pos hst] at hk'
        rw [this] at hk'
        exact Bool.false_ne_true hk'
      · by_cases hst1 : e.state = 1
        · rw [if_neg hst, if_pos hst1] at hk'
          rw [this] at hk'
          exact Bool.false_ne_true hk'
        · rw [if_neg hst, if_neg hst1] at hk'
          rw [this] at hk'
          exact Bool.false_ne_true hk'
    · have httl : (mapLookup s.ttlMap k').isSome = true := by
        by_cases hst : e.state = 0
        · rw [if_pos hst] at hk'
          rwa [mapLookup_delete_ne s.ttlMap k k' hkk] at hk'
        · by_cases hst1 : e.state = 1
          · rw [if_neg hst, if_pos hst1] at hk'
            rwa [mapLookup_delete_ne s.ttlMap k k' hkk] at hk'
          · rw [if_neg hst, if_neg hst1] at hk'
            rwa [mapLookup_delete_ne s.ttlMap k k' hkk] at hk'
      have hcache := h k' httl
      by_cases hst : e.state = 0
      · rw [if_pos hst]
        rwa [mapLookup_delete_ne s.cacheMap k k' hkk]
      · by_cases hst1 : e.state = 1
        · rw [if_neg hst, if_pos hst1]
          rwa [mapLookup_delete_ne s.cacheMap k k' hkk]
        · rw [if_neg hst, if_neg hst1]
          rwa [mapLookup_delete_ne s.cacheMap k k' hkk]

theorem ttlSub_flushMru (s : Shard) (h : TTLSub s) : TTLSub (FlushMru s) := by
  intro k' hk'
  have horig := lookup_filter_isSome s.ttlMap _ k' hk'
  have hq := lookup_filter_key s.ttlMap
    (fun x => decide ¬(stateIs s.cacheMap x 0 = true)) k' hk'
  have hnt : ¬ stateIs s.cacheMap k' 0 = true := of_decide_eq_true hq
  have hstate : stateIs s.cacheMap k' 0 = false := by
    cases hsi : stateIs s.cacheMap k' 0
    · rfl
    · exact absurd hsi hnt
  have hcache := h k' horig
  obtain ⟨e, he⟩ := Option.isSome_iff_exists.mp hcache
  have hst : ¬(e.state = 0) := by
    intro hcon
    simp only [stateIs, he, hcon] at hstate
    exact absurd hstate (by decide)
  exact lookup_filter_entry s.cacheMap _ k' e he (by
    simp only [decide_eq_true_eq]
    exact hst)

theorem ttlSub_flushMfu (s : Shard) (h : TTLSub s) : TTLSub (FlushMfu s) := by
  intro k' hk'
  have horig := lookup_filter_isSome s.ttlMap _ k' hk'
  have hq := lookup_filter_key s.ttlMap
    (fun x => decide ¬(stateIs s.cacheMap x 1 = true)) k' hk'
  have hnt : ¬ stateIs s.cacheMap k' 1 = true := of_decide_eq_true hq
  have hstate : stateIs s.cacheMap k' 1 = false := by
    cases hsi : stateIs s.cacheMap k' 1
    · rfl
    · exact absurd hsi hnt
  have hcache := h k' horig
  obtain ⟨e, he⟩ := Option.isSome_iff_exists.mp hcache
  have hst : ¬(e.state = 1) := by
    intro hcon
    simp only [stateIs, he, hcon] at hstate
    exact absurd hstate (by decide)
  exact lookup_filter_entry s.cacheMap _ k' e he (by
    simp only [decide_eq_true_eq]
    exact hst)

theorem ttlSub_flushAll (s : Shard) (now : Int) : TTLSub (FlushAll s now) := by
  intro k' hk'
  exact hk'

theorem decrementTTLCount_maps (s : Shard) (n : Nat) :
    (decrementTTLCount s n).ttlMap = s.ttlMap ∧
      (decrementTTLCount s n).cacheMap = s.cacheMap := by
  refine ⟨?_, ?_⟩ <;>
    (simp only [decrementTTLCount]
     split <;> rfl)

theorem ttlSub_evictTTLFold (l : List String) :
    ∀ acc : Shard × Nat, TTLSub acc.1 →
      TTLSub (l.foldl (fun (acc : Shard × Nat) k =>
          match mapLookup acc.1.cacheMap k with
          | some e =>
            ({ acc.1 with
                cacheMap := mapDelete acc.1.cacheMap k
                ttlMap := mapDelete acc.1.ttlMap k
                mru := if e.state = 0 then acc.1.mru.erase k else acc.1.mru
                mfu := if e.state = 1 then acc.1.mfu.erase k else acc.1.mfu },
              acc.2 + 1)
          | none => acc) acc).1 := by
  induction l with
  | nil => intro acc hacc; exact hacc
  | cons a rest ih =>
    intro acc hacc
    rw [List.foldl_cons]
    cases hm : mapLookup acc.1.cacheMap a with
    | none =>
      simp only [hm]
      exact ih acc hacc
    | some e =>
      simp only [hm]
      apply ih
      intro k' hk'
      have hk2 : (mapLookup (mapDelete acc.1.ttlMap a) k').isSome = true := hk'
      show (mapLookup (mapDelete acc.1.cacheMap a) k').isSome = true
      by_cases hkk : k' = a
      · subst hkk
        rw [mapLookup_delete_self] at hk2
        exact absurd hk2 Bool.false_ne_true
      · rw [mapLookup_delete_ne acc.1.cacheMap a k' hkk]
        apply hacc k'
        rwa [mapLookup_delete_ne acc.1.ttlMap a k' hkk] at hk2

theorem ttlSub_evictTTL (s : Shard) (now : Int) (h : TTLSub s) :
    TTLSub (evictTTL s now).1 := by
  by_cases hc : s.ttlCount = 0
  · simp only [evictTTL]
    rw [if_pos hc]
    exact h
  · simp only [evictTTL]
    rw [if_neg hc]
    have hfold := ttlSub_evictTTLFold
      ((s.ttlMap.filter (fun p => decide (p.2 < now))).map Prod.fst) (s, 0) h
    intro k' hk'
    rw [(decrementTTLCount_maps _ _).2]
    rw [(decrementTTLCount_maps _ _).1] at hk'
    exact hfold k' hk'

theorem ttlSub_promoteOne (s : Shard) (c : String) (h : TTLSub s) :
    TTLSub (promoteOne s c) := by
  intro k' hk'
  show (mapLookup (mapAdjust s.cacheMap c
    (fun e => { e with state := 1 })) k').isSome = true
  rw [isSome_adjust]
  exact h k' hk'

theorem ttlSub_demoteOne (s : Shard) (c : String) (h : TTLSub s) :
    TTLSub (demoteOne s c) := by
  intro k' hk'
  show (mapLookup (mapAdjust s.cacheMap c
    (fun e => { e with state := 0 })) k').isSome = true
  rw [isSome_adjust]
  exact h k' hk'

theorem ttlSub_freePromote (s : Shard) (l : List String) (h : TTLSub s) :
    TTLSub (freePromote s l).1 := by
  induction l generalizing s with
  | nil => exact h
  | cons c rest ih =>
    rw [freePromote]
    by_cases hc : scoreOf s c < 2
    · rw [if_pos hc]
      exact h
    · rw [if_neg hc]
      exact ih (promoteOne s c) (ttlSub_promoteOne s c h)

theorem ttlSub_scorePromoteLoop (l : List String) :
    ∀ (s : Shard) (b : List String) (p : Nat), TTLSub s →
      TTLSub (scorePromoteLoop s l b p).1 := by
  induction l with
  | nil => intro s b p h; exact h
  | cons c rest ih =>
    intro s b p h
    rw [scorePromoteLoop]
    by_cases hbe : b.isEmpty
    · rw [if_pos hbe]
      exact ih s b p h
    · rw [if_neg hbe]
      cases hscan : scanBottom s (scoreOf s c) b with
      | none => exact h
      | some i =>
        simp only []
        exact ih _ _ _ (ttlSub_promoteOne _ _ (ttlSub_demoteOne _ _ h))

theorem ttlSub_evictTailOnce (s : Shard) (h : TTLSub s) :
    TTLSub (evictTailOnce s) := by
  intro k' hk'
  cases hm : s.mru.getLast? with
  | none =>
    simp only [evictTailOnce, hm] at hk' ⊢
    exact h k' hk'
  | some k =>
    simp only [evictTailOnce, hm] at hk' ⊢
    by_cases hkk : k' = k
    · subst hkk
      exfalso
      rw [mapLookup_delete_self] at hk'
      exact Bool.false_ne_true hk'
    · rw [mapLookup_delete_ne s.cacheMap k k' hkk]
      apply h k'
      rwa [mapLookup_delete_ne s.ttlMap k k' hkk] at hk'

theorem ttlSub_evictTailLoop (n : Nat) (s : Shard) (h : TTLSub s) :
    TTLSub (evictTailLoop s n) := by
  induction n generalizing s with
  | zero => exact h
  | succ m ih =>
    rw [evictTailLoop]
    exact ih (evictTailOnce s) (ttlSub_evictTailOnce s h)

theorem ttlSub_evictFromMRUTail (s : Shard) (n : Nat) (h : TTLSub s) :
    TTLSub (evictFromMRUTail s n) := by
  simp only [evictFromMRUTail]
  intro k' hk'
  rw [(decrementTTLCount_maps _ _).2]
  rw [(decrementTTLCount_maps _ _).1] at hk'
  exact ttlSub_evictTailLoop n s h k' hk'

theorem ttlSub_promoteEvict (s : Shard) (h : TTLSub s) :
    TTLSub (promoteEvict s) := by
  by_cases h1 : ((s.mru.length : Int) - (s.mruCap : Int)) ≤ 0
  · simp only [promoteEvict, promoteEvictCore]
    rw [if_pos h1]
    exact h
  · simp only [promoteEvict, promoteEvictCore]
    rw [if_neg h1]
    by_cases h2 : s.mfuCap = 0
    · rw [if_pos h2]
      exact ttlSub_evictFromMRUTail _ _ h
    · rw [if_neg h2]
      generalize ((s.mru.length : Int) - (s.mruCap : Int)).toNat = ov
      generalize (HighScores (scoreOf s) s.mru ov).reverse = cands
      generalize hfp : freePromote s (cands.take
        (if ov ≤ s.mfuCap - s.mfu.length then ov
         else s.mfuCap - s.mfu.length)) = fp
      have hfps : TTLSub fp.1 := by
        rw [← hfp]
        exact ttlSub_freePromote s _ h
      by_cases h3 : fp.2 = ov
      · rw [if_pos h3]
        exact hfps
      · rw [if_neg h3]
        generalize LowScores (scoreOf fp.1) fp.1.mfu (ov - fp.2) = bottom
        by_cases h4 : bottom.isEmpty ∨
            scoreOf fp.1 (cands.getD fp.2 "") ≤ scoreOf fp.1 (bottom.headD "")
        · rw [if_pos h4]
          split
          · exact ttlSub_evictFromMRUTail _ _ hfps
          · exact hfps
        · rw [if_neg h4]
          have hsp := ttlSub_scorePromoteLoop (cands.drop fp.2) fp.1 bottom 0
            hfps
          split
          · exact ttlSub_evictFromMRUTail _ _ hsp
          · exact hsp

theorem ttlSub_step (s : Shard) (op : Op)
    (hguard : ∀ k v t now, op = .setTTL k v t now →
      (SetTTLRaw s k v t now).1 = true)
    (h : TTLSub s) : TTLSub (stepShard s op) := by
  cases op with
  | set k v => exact ttlSub_setRaw s k v h
  | setTTL k v t now =>
    exact ttlSub_setTTLRaw s k v t now (hguard k v t now rfl) h
  | get k => exact ttlSub_get s k h
  | del k => exact ttlSub_del s k h
  | flushMru => exact ttlSub_flushMru s h
  | flushMfu => exact ttlSub_flushMfu s h
  | flushAll now => exact ttlSub_flushAll s now
  | evictTTL now => exact ttlSub_evictTTL s now h
  | promoteEvict => exact ttlSub_promoteEvict s h

/-- C2 amended.  After every sequence of public operations and maintenance
passes in which no `SetTTL` call was overflow-rejected, every key of a
shard's TTL map is also a key of its entry map.  (The proviso is necessary:
an overflow-rejected `SetTTL` records the key in the TTL map before the
capacity check, breaking the subset property — see the counterexample.) -/
theorem c2_ttl_subset (s : Shard) (h : ReachTTLSafe s) (k : String)
    (hk : (mapLookup s.ttlMap k).isSome = true) :
    (mapLookup s.cacheMap k).isSome = true := by
  have hsub : TTLSub s := by
    clear hk
    induction h with
    | init mfuCap mruCap noOv now =>
      intro k' hk'
      exact hk'
    | step op hrs hguard ih => exact ttlSub_step _ op hguard ih
  exact hsub k hk

/-- C2: the unguarded claim fails.  Starting from a fresh shard with MRU
capacity 1 and no-overflow set, a successful `Set "a"` fills the MRU, and a
following `SetTTL "b"` is overflow-rejected — yet it leaves `"b"` in the
TTL map while `"b"` never enters the entry map. -/
theorem c2_counterexample :
    Reach (stepShard (stepShard (initShard 2 1 true 0)
      (.set "a" (some "v"))) (.setTTL "b" (some "w") 100 0)) ∧
    (mapLookup (stepShard (stepShard (initShard 2 1 true 0)
      (.set "a" (some "v"))) (.setTTL "b" (some "w") 100 0)).ttlMap
        "b").isSome = true ∧
    mapLookup (stepShard (stepShard (initShard 2 1 true 0)
      (.set "a" (some "v"))) (.setTTL "b" (some "w") 100 0)).cacheMap
        "b" = none :=
  ⟨Reach.step _ (Reach.step _ (Reach.init 2 1 true 0)), by decide, by decide⟩

theorem c2_ttl_subset_witness :
    (mapLookup (stepShard (initShard 2 2 false 0)
      (.setTTL "a" (some "v") 100 0)).cacheMap "a").isSome = true :=
  c2_ttl_subset _
    (ReachTTLSafe.step _ (ReachTTLSafe.init 2 2 false 0)
      (fun k v t now heq => by cases heq; decide))
    "a" (by decide)

/-! ### Generic preservation through `promoteEvict` -/

theorem freePromote_pres (P : Shard → Prop)
    (hp : ∀ s c, P s → P (promoteOne s c)) :
    ∀ (l : List String) (s : Shard), P s → P (freePromote s l).1 := by
  intro l
  induction l with
  | nil => intro s h; exact h
  | cons c rest ih =>
    intro s h
    rw [freePromote]
    by_cases hc : scoreOf s c < 2
    · rw [if_pos hc]
      exact h
    · rw [if_neg hc]
      exact ih (promoteOne s c) (hp s c h)

theorem scorePromoteLoop_pres (P : Shard → Prop)
    (hstep : ∀ s m c, P s → P (promoteOne (demoteOne s m) c)) :
    ∀ (l : List String) (s : Shard) (b : List String) (p : Nat),
      P s → P (scorePromoteLoop s l b p).1 := by
  intro l
  induction l with
  | nil => intro s b p h; exact h
  | cons c rest ih =>
    intro s b p h
    rw [scorePromoteLoop]
    by_cases hbe : b.isEmpty
    · rw [if_pos hbe]
      exact ih s b p h
    · rw [if_neg hbe]
      cases hscan : scanBottom s (scoreOf s c) b with
      | none => exact h
      | some i =>
        simp only []
        exact ih _ _ _ (hstep s (b.getD i "") c h)

theorem evictTailLoop_pres (P : Shard → Prop)
    (ho : ∀ s, P s → P (evictTailOnce s)) :
    ∀ (n : Nat) (s : Shard), P s → P (evictTailLoop s n) := by
  intro n
  induction n with
  | zero => intro s h; exact h
  | succ m ih =>
    intro s h
    rw [evictTailLoop]
    exact ih (evictTailOnce s) (ho s h)

theorem evictFromMRUTail_pres (P : Shard → Prop)
    (ho : ∀ s, P s → P (evictTailOnce s))
    (hd : ∀ s n, P s → P (decrementTTLCount s n))
    (hc : ∀ s x, P s → P { s with evictions := x }) :
    ∀ (s : Shard) (n : Nat), P s → P (evictFromMRUTail s n) := by
  intro s n h
  show P { decrementTTLCount (evictTailLoop s n)
      (s.ttlMap.length - (evictTailLoop s n).ttlMap.length) with
    evictions := u64add (decrementTTLCount (evictTailLoop s n)
      (s.ttlMap.length - (evictTailLoop s n).ttlMap.length)).evictions
      (n - (s.ttlMap.length - (evictTailLoop s n).ttlMap.length)) }
  exact hc _ _ (hd _ _ (evictTailLoop_pres P ho n s h))

theorem promoteEvict_pres (P : Shard → Prop)
    (hev : ∀ s n, P s → P (evictFromMRUTail s n))
    (hfp : ∀ s l, P s → P (freePromote s l).1)
    (hsp : ∀ l s b p, P s → P (scorePromoteLoop s l b p).1)
    (s : Shard) (h : P s) : P (promoteEvict s) := by
  by_cases h1 : ((s.mru.length : Int) - (s.mruCap : Int)) ≤ 0
  · simp only [promoteEvict, promoteEvictCore]
    rw [if_pos h1]
    exact h
  · simp only [promoteEvict, promoteEvictCore]
    rw [if_neg h1]
    by_cases h2 : s.mfuCap = 0
    · rw [if_pos h2]
      exact hev _ _ h
    · rw [if_neg h2]
      generalize ((s.mru.length : Int) - (s.mruCap : Int)).toNat = ov
      generalize (HighScores (scoreOf s) s.mru ov).reverse = cands
      generalize hfpe : freePromote s (cands.take
        (if ov ≤ s.mfuCap - s.mfu.length then ov
         else s.mfuCap - s.mfu.length)) = fp
      have hfps : P fp.1 := by
        rw [← hfpe]
        exact hfp s _ h
      by_cases h3 : fp.2 = ov
      · rw [if_pos h3]
        exact hfps
      · rw [if_neg h3]
        generalize LowScores (scoreOf fp.1) fp.1.mfu (ov - fp.2) = bottom
        by_cases h4 : bottom.isEmpty ∨
            scoreOf fp.1 (cands.getD fp.2 "") ≤ scoreOf fp.1 (bottom.headD "")
        · rw [if_pos h4]
          split
          · exact hev _ _ hfps
          · exact hfps
        · rw [if_neg h4]
          have hsps := hsp (cands.drop fp.2) fp.1 bottom 0 hfps
          split
          · exact hev _ _ hsps
          · exact hsps

/-! ### Claim C9: a nil-valued key reads as a miss -/

theorem value_adjust (m : List (String × Entry)) (k k' : String)
    (f : Entry → Entry) (hf : ∀ e, (f e).value = e.value) :
    (mapLookup (mapAdjust m k' f) k).map Entry.value =
      (mapLookup m k).map Entry.value := by
  by_cases hkk : k = k'
  · subst hkk
    rw [mapLookup_adjust_self]
    cases mapLookup m k with
    | none => rfl
    | some e => simp [hf]
  · rw [mapLookup_adjust_ne m k' k f hkk]

theorem valNone_adjusted (m : List (String × Entry)) (k k' : String)
    (f : Entry → Entry) (hf : ∀ e, (f e).value = e.value)
    (h : ∀ e, mapLookup m k = some e → e.value = none) :
    ∀ e, mapLookup (mapAdjust m k' f) k = some e → e.value = none := by
  intro e he
  have hv := value_adjust m k k' f hf
  rw [he] at hv
  cases hm : mapLookup m k with
  | none => rw [hm] at hv; cases hv
  | some e0 =>
    rw [hm] at hv
    simp only [Option.map_some'] at hv
    injection hv with hv
    rw [hv]
    exact h e0 hm

theorem valNone_promoteEvict (s : Shard) (k : String)
    (h : ∀ e, mapLookup s.cacheMap k = some e → e.value = none) :
    ∀ e, mapLookup (promoteEvict s).cacheMap k = some e → e.value = none := by
  refine promoteEvict_pres
    (fun t => ∀ e, mapLookup t.cacheMap k = some e → e.value = none)
    ?_ ?_ ?_ s h
  · intro t n ht
    refine evictFromMRUTail_pres
      (fun u => ∀ e, mapLookup u.cacheMap k = some e → e.value = none)
      ?_ ?_ ?_ t n ht
    · intro u hu
      cases hm : u.mru.getLast? with
      | none =>
        simp only [evictTailOnce, hm]
        exact hu
      | some tl =>
        simp only [evictTailOnce, hm]
        intro e he
        have he2 : mapLookup (mapDelete u.cacheMap tl) k = some e := he
        by_cases hkk : k = tl
        · subst hkk
          rw [mapLookup_delete_self] at he2
          cases he2
        · rw [mapLookup_delete_ne u.cacheMap tl k hkk] at he2
          exact hu e he2
    · intro u n hu
      intro e he
      rw [(decrementTTLCount_maps u n).2] at he
      exact hu e he
    · intro u x hu
      intro e he
      exact hu e he
  · intro t l ht
    refine freePromote_pres
      (fun u => ∀ e, mapLookup u.cacheMap k = some e → e.value = none)
      ?_ l t ht
    intro u c hu
    intro e he
    have he2 : mapLookup (mapAdjust u.cacheMap c
        (fun e => { e with state := 1 })) k = some e := he
    exact valNone_adjusted u.cacheMap k c (fun e => { e with state := 1 })
      (fun e => rfl) hu e he2
  · intro l t b p ht
    refine scorePromoteLoop_pres
      (fun u => ∀ e, mapLookup u.cacheMap k = some e → e.value = none)
      ?_ l t b p ht
    intro u m c hu
    intro e he
    have he2 : mapLookup (mapAdjust (mapAdjust u.cacheMap m
        (fun e => { e with state := 0 })) c
        (fun e => { e with state := 1 })) k = some e := he
    exact valNone_adjusted _ k c (fun e => { e with state := 1 })
      (fun e => rfl)
      (valNone_adjusted u.cacheMap k m (fun e => { e with state := 0 })
        (fun e => rfl) hu) e he2

theorem valNone_setRaw (s : Shard) (k : String) :
    ∀ e, mapLookup (SetRaw s k none).2.cacheMap k = some e →
      e.value = none := by
  intro e he
  cases hm : mapLookup s.cacheMap k with
  | none =>
    simp only [SetRaw, hm] at he
    by_cases hc : s.noOverflow = true ∧ s.mruCap ≤ s.mru.length
    · rw [if_pos hc] at he
      rw [hm] at he
      cases he
    · rw [if_neg hc] at he
      rw [mapLookup, if_pos rfl] at he
      injection he with he
      rw [← he]
  | some e0 =>
    simp only [SetRaw, hm] at he
    have key : mapLookup (mapAdjust s.cacheMap k
        (fun e => { e with value := none })) k = some e → e.value = none := by
      intro he2
      rw [mapLookup_adjust_self, hm] at he2
      simp only [Option.map_some'] at he2
      injection he2 with he2
      rw [← he2]
    by_cases hst : e0.state = 0
    · rw [if_pos hst] at he
      exact key he
    · rw [if_neg hst] at he
      exact key he

/-- C9: a key stored with the `nil` value reads back exactly like a miss.
`Set(k, nil)` (including its inline promote-evict) leaves every entry the
key may still have carrying the `nil` value, so the following `Get(k)`
returns `nil` whether the key survived or not — and `nil` is precisely
what `Get` returns for an absent key, so only the hit/miss counters
distinguish the two cases. -/
theorem c9_nil_set_get (s : Shard) (k : String) :
    (Get (Set s k none).2 k).1 = none ∧
    (∀ (s' : Shard) (k' : String), mapLookup s'.cacheMap k' = none →
      (Get s' k').1 = none) := by
  constructor
  · have hraw := valNone_setRaw s k
    have hfinal : ∀ e, mapLookup (Set s k none).2.cacheMap k = some e →
        e.value = none := by
      simp only [Set]
      by_cases hs : (SetRaw s k none).1 = true
      · rw [if_pos hs]
        exact valNone_promoteEvict _ k hraw
      · rw [if_neg hs]
        exact hraw
    cases hm : mapLookup (Set s k none).2.cacheMap k with
    | none =>
      simp only [Get, hm]
    | some e =>
      simp only [Get, hm]
      exact hfinal e hm
  · intro s' k' hm
    simp only [Get, hm]

theorem c9_nil_set_get_witness :
    (Get (Set (initShard 2 1 false 0) "a" none).2 "a").1 = none ∧
    ((mapLookup (initShard 2 1 false 0).cacheMap "b" = none) ∧
      (Get (initShard 2 1 false 0) "b").1 = none) :=
  ⟨(c9_nil_set_get (initShard 2 1 false 0) "a").1,
    rfl, (c9_nil_set_get (initShard 2 1 false 0) "a").2
      (initShard 2 1 false 0) "b" rfl⟩

/-! ### Claim C7: set-then-get round-trip -/

theorem stateIs_isSome (m : List (String × Entry)) (x : String) (t : Nat)
    (h : stateIs m x t = true) : (mapLookup m x).isSome = true := by
  cases hm : mapLookup m x with
  | none =>
    simp only [stateIs, hm] at h
    cases h
  | some e => rfl

theorem stateIs_tag (m : List (String × Entry)) (x : String) (t : Nat)
    (h : stateIs m x t = true) :
    ∃ e, mapLookup m x = some e ∧ e.state = t := by
  cases hm : mapLookup m x with
  | none =>
    simp only [stateIs, hm] at h
    cases h
  | some e =>
    simp only [stateIs, hm] at h
    exact ⟨e, rfl, eq_of_beq h⟩

theorem tags_disjoint (m : List (String × Entry)) (x : String)
    (h0 : stateIs m x 0 = true) (h1 : stateIs m x 1 = true) : False := by
  obtain ⟨e0, he0, hs0⟩ := stateIs_tag m x 0 h0
  obtain ⟨e1, he1, hs1⟩ := stateIs_tag m x 1 h1
  rw [he0] at he1
  injection he1 with he1
  rw [he1, hs1] at hs0
  cases hs0

theorem stateIs_adjust_self (m : List (String × Entry)) (c : String) (t : Nat)
    (h : (mapLookup m c).isSome = true) :
    stateIs (mapAdjust m c (fun e => { e with state := t })) c t = true := by
  obtain ⟨e, he⟩ := Option.isSome_iff_exists.mp h
  simp only [stateIs, mapLookup_adjust_self, he, Option.map_some']
  exact Nat.beq_eq_true_eq t t ▸ (by simp)

theorem stateIs_adjust_ne (m : List (String × Entry)) (c x : String)
    (f : Entry → Entry) (t : Nat) (hx : x ≠ c) :
    stateIs (mapAdjust m c f) x t = stateIs m x t := by
  simp only [stateIs, mapLookup_adjust_ne m c x f hx]

theorem WF_promoteOne (s : Shard) (c : String) (hwf : WF s)
    (hc : c ∈ s.mru) : WF (promoteOne s c) := by
  obtain ⟨hnr, hnf, htr, htf⟩ := hwf
  have hcnotf : c ∉ s.mfu := fun hcf =>
    tags_disjoint s.cacheMap c (htr c hc) (htf c hcf)
  simp only [WF, promoteOne]
  refine ⟨hnr.erase c, ?_, ?_, ?_⟩
  · rw [List.nodup_append]
    refine ⟨hnf, List.nodup_singleton c, ?_⟩
    intro x hx hxc
    rw [List.mem_singleton] at hxc
    subst hxc
    exact hcnotf hx
  · intro x hx
    have hxne : x ≠ c := (hnr.mem_erase_iff.mp hx).1
    rw [stateIs_adjust_ne s.cacheMap c x _ 0 hxne]
    exact htr x (hnr.mem_erase_iff.mp hx).2
  · intro x hx
    rcases List.mem_append.mp hx with hxf | hxc
    · have hxne : x ≠ c := fun hcon => hcnotf (hcon ▸ hxf)
      rw [stateIs_adjust_ne s.cacheMap c x _ 1 hxne]
      exact htf x hxf
    · rw [List.mem_singleton] at hxc
      subst hxc
      exact stateIs_adjust_self s.cacheMap x 1
        (stateIs_isSome s.cacheMap x 0 (htr x hc))

theorem WF_demoteOne (s : Shard) (m : String) (hwf : WF s)
    (hm : m ∈ s.mfu) : WF (demoteOne s m) := by
  obtain ⟨hnr, hnf, htr, htf⟩ := hwf
  have hmnotr : m ∉ s.mru := fun hmr =>
    tags_disjoint s.cacheMap m (htr m hmr) (htf m hm)
  simp only [WF, demoteOne]
  refine ⟨?_, hnf.erase m, ?_, ?_⟩
  · exact List.nodup_cons.mpr ⟨hmnotr, hnr⟩
  · intro x hx
    rcases List.mem_cons.mp hx with hxm | hxr
    · subst hxm
      exact stateIs_adjust_self s.cacheMap x 0
        (stateIs_isSome s.cacheMap x 1 (htf x hm))
    · have hxne : x ≠ m := fun hcon => hmnotr (hcon ▸ hxr)
      rw [stateIs_adjust_ne s.cacheMap m x _ 0 hxne]
      exact htr x hxr
  · intro x hx
    have hxne : x ≠ m := (hnf.mem_erase_iff.mp hx).1
    rw [stateIs_adjust_ne s.cacheMap m x _ 1 hxne]
    exact htf x (hnf.mem_erase_iff.mp hx).2

theorem lookPres_trans {s t u : Shard} {k : String} (h1 : lookPres s t k)
    (h2 : lookPres t u k) : lookPres s u k := h2.trans h1

theorem lookPres_promoteOne (s : Shard) (c k : String) :
    lookPres s (promoteOne s c) k := by
  simp only [lookPres, promoteOne]
  exact value_adjust s.cacheMap k c _ (fun e => rfl)

theorem lookPres_demoteOne (s : Shard) (m k : String) :
    lookPres s (demoteOne s m) k := by
  simp only [lookPres, demoteOne]
  exact value_adjust s.cacheMap k m _ (fun e => rfl)

theorem coe_add_erase (l : List String) (c : String) (h : c ∈ l) :
    (↑(l.erase c) : Multiset String) + {c} = ↑l := by
  have hp := List.perm_cons_erase h
  rw [Multiset.coe_eq_coe.mpr hp, ← Multiset.cons_coe, ← Multiset.singleton_add]
  exact add_comm _ _

theorem cons_le_erase (rest : List String) (extra : Multiset String)
    (mru : List String) (c : String)
    (h : (↑(c :: rest) : Multiset String) + extra ≤ ↑mru) :
    c ∈ mru ∧ (↑rest : Multiset String) + extra ≤ ↑(mru.erase c) := by
  have hcm : c ∈ mru := by
    have : c ∈ (↑(c :: rest) : Multiset String) + extra :=
      Multiset.mem_add.mpr (Or.inl (Multiset.mem_coe.mpr (List.mem_cons_self c rest)))
    exact Multiset.mem_coe.mp (Multiset.mem_of_le h this)
  refine ⟨hcm, ?_⟩
  have h1 : (↑(c :: rest) : Multiset String) + extra =
      ((↑rest : Multiset String) + extra) + {c} := by
    rw [← Multiset.cons_coe, ← Multiset.singleton_add]
    rw [add_comm ({c} : Multiset String) (↑rest : Multiset String)]
    exact add_right_comm _ _ _
  rw [h1, ← coe_add_erase mru c hcm] at h
  exact (add_le_add_iff_right _).mp h

theorem safe_promoteOne (s : Shard) (k c : String) (B : Nat)
    (hnodup : s.mru.Nodup) (hsafe : Safe s k (B + 1)) :
    Safe (promoteOne s c) k B := by
  simp only [Safe, promoteOne] at hsafe ⊢
  rcases hsafe with hout | ⟨P, S, heq, hkS, hlen⟩
  · exact Or.inl (fun hk => hout (List.mem_of_mem_erase hk))
  · have hkP : k ∉ P := by
      intro hkPm
      rw [heq, List.nodup_append] at hnodup
      exact hnodup.2.2 hkPm (List.mem_cons_self k S)
    by_cases hck : c = k
    · subst hck
      refine Or.inl ?_
      rw [heq, List.erase_append_right _ hkP, List.erase_cons_head]
      intro hk
      rcases List.mem_append.mp hk with h | h
      · exact hkP h
      · exact hkS h
    · by_cases hcP : c ∈ P
      · refine Or.inr ⟨P.erase c, S, ?_, hkS, by omega⟩
        rw [heq, List.erase_append_left _ hcP]
      · refine Or.inr ⟨P, S.erase c, ?_,
          fun hk => hkS (List.mem_of_mem_erase hk), ?_⟩
        · rw [heq, List.erase_append_right _ hcP,
            List.erase_cons_tail (not_beq_of_ne (Ne.symm hck))]
        · have := List.le_length_erase c S
          omega

theorem freePromote_spec (k : String) (l : List String) :
    ∀ (s : Shard) (extra : Multiset String), WF s →
      (↑l : Multiset String) + extra ≤ ↑s.mru →
      WF (freePromote s l).1 ∧
      (freePromote s l).1.mru.length + (freePromote s l).2 = s.mru.length ∧
      (↑(l.drop (freePromote s l).2) : Multiset String) + extra ≤
        ↑(freePromote s l).1.mru ∧
      lookPres s (freePromote s l).1 k ∧
      (∀ n, Safe s k (n + (freePromote s l).2) →
        Safe (freePromote s l).1 k n) := by
  induction l with
  | nil =>
    intro s extra hwf hle
    exact ⟨hwf, rfl, hle, rfl, fun n h => h⟩
  | cons c rest ih =>
    intro s extra hwf hle
    rw [freePromote]
    by_cases hc : scoreOf s c < 2
    · rw [if_pos hc]
      exact ⟨hwf, rfl, hle, rfl, fun n h => h⟩
    · rw [if_neg hc]
      obtain ⟨hcm, hle'⟩ := cons_le_erase rest extra s.mru c hle
      have hwf' := WF_promoteOne s c hwf hcm
      have hle'' : (↑rest : Multiset String) + extra ≤
          ↑(promoteOne s c).mru := hle'
      obtain ⟨ihwf, ihlen, ihdrop, ihlook, ihsafe⟩ :=
        ih (promoteOne s c) extra hwf' hle''
      have hplen : (promoteOne s c).mru.length = s.mru.length - 1 :=
        List.length_erase_of_mem hcm
      have hpos : 1 ≤ s.mru.length := List.length_pos_of_mem hcm
      refine ⟨ihwf, ?_, ?_, ?_, ?_⟩
      · show (freePromote (promoteOne s c) rest).1.mru.length +
          ((freePromote (promoteOne s c) rest).2 + 1) = s.mru.length
        omega
      · show (↑((c :: rest).drop
            ((freePromote (promoteOne s c) rest).2 + 1)) : Multiset String) +
            extra ≤ ↑(freePromote (promoteOne s c) rest).1.mru
        rw [List.drop_succ_cons]
        exact ihdrop
      · exact lookPres_trans (lookPres_promoteOne s c k) ihlook
      · intro n hsafe
        show Safe (freePromote (promoteOne s c) rest).1 k n
        apply ihsafe n
        apply safe_promoteOne s k c _ hwf.1
        have heq2 : n + ((freePromote (promoteOne s c) rest).2 + 1) =
            (n + (freePromote (promoteOne s c) rest).2) + 1 := by omega
        rw [heq2] at hsafe
        exact hsafe

theorem safe_demote_promote (s : Shard) (k m c : String) (B : Nat)
    (hnodup : s.mru.Nodup) (hmnotr : m ∉ s.mru) (hcm : c ∈ s.mru)
    (hsafe : Safe s k (B + 1)) (hB : B + 1 ≤ s.mru.length) :
    Safe (promoteOne (demoteOne s m) c) k B := by
  have hcne : c ≠ m := fun hcon => hmnotr (hcon ▸ hcm)
  have hmru2 : (promoteOne (demoteOne s m) c).mru = m :: (s.mru.erase c) := by
    simp only [promoteOne, demoteOne]
    exact List.erase_cons_tail (not_beq_of_ne (Ne.symm hcne))
  rcases hsafe with hout | ⟨P, S, heq, hkS, hlen⟩
  · by_cases hkm : k = m
    · subst hkm
      refine Or.inr ⟨[], s.mru.erase c, ?_, ?_, ?_⟩
      · rw [hmru2]
        rfl
      · intro hk
        exact hout (List.mem_of_mem_erase hk)
      · rw [List.length_erase_of_mem hcm]
        omega
    · refine Or.inl ?_
      rw [hmru2]
      intro hk
      rcases List.mem_cons.mp hk with h | h
      · exact hkm h
      · exact hout (List.mem_of_mem_erase h)
  · have hkmem : k ∈ s.mru := by
      rw [heq]
      exact List.mem_append.mpr (Or.inr (List.mem_cons_self k S))
    have hkm : k ≠ m := fun hcon => hmnotr (hcon ▸ hkmem)
    have hnd := hnodup
    rw [heq, List.nodup_append] at hnd
    have hkP : k ∉ P := fun hkPm => hnd.2.2 hkPm (List.mem_cons_self k S)
    by_cases hck : c = k
    · subst hck
      refine Or.inl ?_
      rw [hmru2]
      intro hk
      rcases List.mem_cons.mp hk with h | h
      · exact hkm h
      · exact hnodup.not_mem_erase h
    · by_cases hcP : c ∈ P
      · refine Or.inr ⟨m :: P.erase c, S, ?_, hkS, by omega⟩
        rw [hmru2, heq, List.erase_append_left _ hcP]
        rfl
      · refine Or.inr ⟨m :: P, S.erase c, ?_,
          fun hk => hkS (List.mem_of_mem_erase hk), ?_⟩
        · rw [hmru2, heq, List.erase_append_right _ hcP,
            List.erase_cons_tail (not_beq_of_ne (Ne.symm hck))]
          rfl
        · have := List.le_length_erase c S
          omega

theorem scorePromoteLoop_spec2 (k : String) (l : List String) :
    ∀ (s : Shard) (b : List String) (p : Nat),
      WF s → (↑l : Multiset String) ≤ ↑s.mru →
      (↑b : Multiset String) ≤ ↑s.mfu →
      WF (scorePromoteLoop s l b p).1 ∧
      (scorePromoteLoop s l b p).1.mru.length = s.mru.length ∧
      lookPres s (scorePromoteLoop s l b p).1 k ∧
      p ≤ (scorePromoteLoop s l b p).2 ∧
      (scorePromoteLoop s l b p).2 - p ≤ l.length ∧
      (∀ n, n + ((scorePromoteLoop s l b p).2 - p) ≤ s.mru.length →
        Safe s k (n + ((scorePromoteLoop s l b p).2 - p)) →
        Safe (scorePromoteLoop s l b p).1 k n) := by
  induction l with
  | nil =>
    intro s b p hwf hls hbs
    rw [scorePromoteLoop]
    refine ⟨hwf, rfl, rfl, Nat.le_refl p, ?_, ?_⟩
    · show p - p ≤ ([] : List String).length
      omega
    · intro n _ h
      have h2 : Safe s k (n + (p - p)) := h
      have he : n + (p - p) = n := by omega
      rw [he] at h2
      exact h2
  | cons c rest ih =>
    intro s b p hwf hls hbs
    have hrest : (↑rest : Multiset String) ≤ ↑s.mru := by
      refine le_trans ?_ hls
      rw [← Multiset.cons_coe]
      exact Multiset.le_cons_self _ _
    rw [scorePromoteLoop]
    by_cases hbe : b.isEmpty
    · rw [if_pos hbe]
      obtain ⟨a1, a2, a3, a4, a5, a6⟩ := ih s b p hwf hrest hbs
      exact ⟨a1, a2, a3, a4, le_trans a5 (by simp), a6⟩
    · rw [if_neg hbe]
      cases hscan : scanBottom s (scoreOf s c) b with
      | none =>
        refine ⟨hwf, rfl, rfl, Nat.le_refl p, ?_, ?_⟩
        · show p - p ≤ (c :: rest).length
          omega
        · intro n _ h
          have h2 : Safe s k (n + (p - p)) := h
          have he : n + (p - p) = n := by omega
          rw [he] at h2
          exact h2
      | some i =>
        simp only []
        have hi := scanBottom_lt s (scoreOf s c) b i hscan
        have hmb : b.getD i "" ∈ b := getD_mem hi
        have hmf : b.getD i "" ∈ s.mfu :=
          Multiset.mem_coe.mp (Multiset.mem_of_le hbs (Multiset.mem_coe.mpr hmb))
        have hcm : c ∈ s.mru :=
          Multiset.mem_coe.mp (Multiset.mem_of_le hls
            (Multiset.mem_coe.mpr (List.mem_cons_self c rest)))
        have hmnotr : (b.getD i "") ∉ s.mru := fun hmr =>
          tags_disjoint s.cacheMap _ (hwf.2.2.1 _ hmr) (hwf.2.2.2 _ hmf)
        have hcne : c ≠ b.getD i "" := fun hcon => hmnotr (hcon ▸ hcm)
        have hwf2 : WF (promoteOne (demoteOne s (b.getD i "")) c) := by
          refine WF_promoteOne _ c (WF_demoteOne s _ hwf hmf) ?_
          exact List.mem_cons_of_mem _ hcm
        have hmru2 : (promoteOne (demoteOne s (b.getD i "")) c).mru =
            (b.getD i "") :: (s.mru.erase c) := by
          simp only [promoteOne, demoteOne]
          exact List.erase_cons_tail (not_beq_of_ne (Ne.symm hcne))
        have hls2 : (↑rest : Multiset String) ≤
            ↑(promoteOne (demoteOne s (b.getD i "")) c).mru := by
          rw [hmru2]
          obtain ⟨-, h2⟩ := cons_le_erase rest 0 s.mru c (by simpa using hls)
          calc (↑rest : Multiset String)
              ≤ ↑(s.mru.erase c) := by simpa using h2
            _ ≤ ↑((b.getD i "") :: s.mru.erase c) := by
                rw [← Multiset.cons_coe]
                exact Multiset.le_cons_self _ _
        have hbs2 : (↑(b.eraseIdx i) : Multiset String) ≤
            ↑(promoteOne (demoteOne s (b.getD i "")) c).mfu := by
          show (↑(b.eraseIdx i) : Multiset String) ≤
            ↑(s.mfu.erase (b.getD i "") ++ [c])
          have h1 : (↑(b.eraseIdx i) : Multiset String) + {b.getD i ""} =
              ↑b := coe_eraseIdx_add b i hi
          have h2 : (↑(s.mfu.erase (b.getD i "")) : Multiset String) +
              {b.getD i ""} = ↑s.mfu := coe_add_erase s.mfu _ hmf
          have h3 : (↑(b.eraseIdx i) : Multiset String) + {b.getD i ""} ≤
              ↑(s.mfu.erase (b.getD i "")) + {b.getD i ""} := by
            rw [h1, h2]
            exact hbs
          have h4 := (add_le_add_iff_right
            ({b.getD i ""} : Multiset String)).mp h3
          calc (↑(b.eraseIdx i) : Multiset String)
              ≤ ↑(s.mfu.erase (b.getD i "")) := h4
            _ ≤ ↑(s.mfu.erase (b.getD i "")) + ↑([c] : List String) :=
                Multiset.le_add_right _ _
            _ = ↑(s.mfu.erase (b.getD i "") ++ [c]) := by
                rw [← Multiset.coe_add]
        have hlen2 : (promoteOne (demoteOne s (b.getD i "")) c).mru.length =
            s.mru.length := by
          rw [hmru2]
          simp only [List.length_cons]
          rw [List.length_erase_of_mem hcm]
          have := List.length_pos_of_mem hcm
          omega
        obtain ⟨a1, a2, a3, a4, a5, a6⟩ :=
          ih (promoteOne (demoteOne s (b.getD i "")) c) (b.eraseIdx i)
            (p + 1) hwf2 hls2 hbs2
        refine ⟨a1, by rw [a2, hlen2], ?_, by omega, ?_, ?_⟩
        · exact lookPres_trans (lookPres_trans
            (lookPres_demoteOne s (b.getD i "") k)
            (lookPres_promoteOne (demoteOne s (b.getD i "")) c k)) a3
        · simp only [List.length_cons]
          omega
        · intro n hn hsafe
          have hD : (scorePromoteLoop (promoteOne (demoteOne s (b.getD i ""))
              c) rest (b.eraseIdx i) (p + 1)).2 - p =
              ((scorePromoteLoop (promoteOne (demoteOne s (b.getD i "")) c)
                rest (b.eraseIdx i) (p + 1)).2 - (p + 1)) + 1 := by
            omega
          apply a6 n
          · rw [hlen2]
            omega
          · apply safe_demote_promote s k (b.getD i "") c _ hwf.1 hmnotr hcm
            · rw [hD] at hsafe
              have he2 : n + (((scorePromoteLoop (promoteOne (demoteOne s
                  (b.getD i "")) c) rest (b.eraseIdx i) (p + 1)).2 -
                    (p + 1)) + 1) =
                  (n + ((scorePromoteLoop (promoteOne (demoteOne s
                    (b.getD i "")) c) rest (b.eraseIdx i) (p + 1)).2 -
                      (p + 1))) + 1 := by
                omega
              rwa [he2] at hsafe
            · rw [hD] at hn
              omega

theorem evictTailOnce_look_notmem (s : Shard) (k : String) (hk : k ∉ s.mru) :
    lookPres s (evictTailOnce s) k ∧ k ∉ (evictTailOnce s).mru := by
  cases hm : s.mru.getLast? with
  | none =>
    simp only [evictTailOnce, hm]
    exact ⟨rfl, hk⟩
  | some t =>
    have hsplit : s.mru.dropLast ++ [t] = s.mru :=
      List.dropLast_append_getLast? t (by rw [hm]; rfl)
    have htm : t ∈ s.mru := by
      rw [← hsplit]
      exact List.mem_append.mpr (Or.inr (List.mem_singleton_self t))
    have hkt : k ≠ t := fun hcon => hk (hcon ▸ htm)
    simp only [evictTailOnce, hm]
    constructor
    · show (mapLookup (mapDelete s.cacheMap t) k).map Entry.value =
        (mapLookup s.cacheMap k).map Entry.value
      rw [mapLookup_delete_ne s.cacheMap t k hkt]
    · show k ∉ s.mru.dropLast
      intro hkd
      exact hk ((List.dropLast_sublist s.mru).subset hkd)

theorem evictTailLoop_look_notmem (n : Nat) :
    ∀ (s : Shard) (k : String), k ∉ s.mru →
      lookPres s (evictTailLoop s n) k := by
  induction n with
  | zero => intro s k _; rfl
  | succ nn ih =>
    intro s k hk
    obtain ⟨h1, h2⟩ := evictTailOnce_look_notmem s k hk
    rw [evictTailLoop]
    exact lookPres_trans h1 (ih (evictTailOnce s) k h2)

theorem evictTailLoop_look (n : Nat) :
    ∀ (s : Shard) (k : String) (P S : List String),
      s.mru = P ++ k :: S → k ∉ S → n ≤ S.length →
      lookPres s (evictTailLoop s n) k := by
  induction n with
  | zero => intro s k P S _ _ _; rfl
  | succ nn ih =>
    intro s k P S heq hkS hlen
    have hSne : S ≠ [] := by
      intro hc
      rw [hc] at hlen
      simp at hlen
    obtain ⟨S0, t, hS⟩ := (List.eq_nil_or_concat S).resolve_left hSne
    rw [List.concat_eq_append] at hS
    subst hS
    have hmru : s.mru = (P ++ k :: S0) ++ [t] := by
      rw [heq, ← List.cons_append, ← List.append_assoc]
    have hlast : s.mru.getLast? = some t := by
      rw [hmru]
      exact List.getLast?_concat _
    have hdrop : s.mru.dropLast = P ++ k :: S0 := by
      rw [hmru]
      exact List.dropLast_concat
    have htm : t ∈ S0 ++ [t] :=
      List.mem_append.mpr (Or.inr (List.mem_singleton_self t))
    have hkt : k ≠ t := fun hcon => hkS (hcon ▸ htm)
    have hstep : lookPres s (evictTailOnce s) k := by
      simp only [evictTailOnce, hlast]
      show (mapLookup (mapDelete s.cacheMap t) k).map Entry.value =
        (mapLookup s.cacheMap k).map Entry.value
      rw [mapLookup_delete_ne s.cacheMap t k hkt]
    have hmru1 : (evictTailOnce s).mru = P ++ k :: S0 := by
      simp only [evictTailOnce, hlast]
      exact hdrop
    have hkS0 : k ∉ S0 := fun hc => hkS (List.mem_append.mpr (Or.inl hc))
    have hlen0 : nn ≤ S0.length := by
      have hl : (S0 ++ [t]).length = S0.length + 1 := by simp
      omega
    rw [evictTailLoop]
    exact lookPres_trans hstep (ih (evictTailOnce s) k P S0 hmru1 hkS0 hlen0)

theorem evictFromMRUTail_look (s : Shard) (k : String) (n : Nat)
    (hsafe : Safe s k n) : lookPres s (evictFromMRUTail s n) k := by
  have hloop : lookPres s (evictTailLoop s n) k := by
    rcases hsafe with hout | ⟨P, S, heq, hkS, hlen⟩
    · exact evictTailLoop_look_notmem n s k hout
    · exact evictTailLoop_look n s k P S heq hkS hlen
  have hd := (decrementTTLCount_maps (evictTailLoop s n)
    (s.ttlMap.length - (evictTailLoop s n).ttlMap.length)).2
  show (mapLookup (decrementTTLCount (evictTailLoop s n)
      (s.ttlMap.length - (evictTailLoop s n).ttlMap.length)).cacheMap
    k).map Entry.value = (mapLookup s.cacheMap k).map Entry.value
  rw [hd]
  exact hloop

theorem highScores_le (sc : String → Nat) (l : List String) (kk : Nat)
    (hk : 1 ≤ kk) : (↑(HighScores sc l kk) : Multiset String) ≤ ↑l := by
  have hsel := heapSelect_spec (minHeapLess_asym sc) (minHeapLess_trans sc)
    l kk hk
  rw [HighScores]
  have hp := sortAsc_perm sc (heapSelect (minHeapLess sc) l kk)
  rw [Multiset.coe_eq_coe.mpr hp]
  exact hsel.2.1

theorem highScores_len (sc : String → Nat) (l : List String) (kk : Nat)
    (hk : 1 ≤ kk) : (HighScores sc l kk).length = min kk l.length := by
  have hsel := heapSelect_spec (minHeapLess_asym sc) (minHeapLess_trans sc)
    l kk hk
  rw [HighScores, (sortAsc_perm sc _).length_eq, hsel.1]

theorem stateIs_cons_self (m : List (String × Entry)) (kk : String)
    (e : Entry) (t : Nat) :
    stateIs ((kk, e) :: m) kk t = (e.state == t) := by
  simp [stateIs, mapLookup]

theorem stateIs_cons_ne (m : List (String × Entry)) (kk x : String)
    (e : Entry) (t : Nat) (h : kk ≠ x) :
    stateIs ((kk, e) :: m) x t = stateIs m x t := by
  simp only [stateIs, mapLookup, if_neg h]

theorem stateIs_adjust_pres (m : List (String × Entry)) (c x : String)
    (f : Entry → Entry) (t : Nat) (hf : ∀ e, (f e).state = e.state) :
    stateIs (mapAdjust m c f) x t = stateIs m x t := by
  by_cases hxc : x = c
  · subst hxc
    simp only [stateIs, mapLookup_adjust_self]
    cases mapLookup m x with
    | none => rfl
    | some e => simp [hf]
  · rw [stateIs_adjust_ne m c x f t hxc]

theorem setRaw_start (s : Shard) (k : String) (v : GoVal) (hwf : WF s)
    (hsucc : (SetRaw s k v).1 = true) :
    WF (SetRaw s k v).2 ∧
    (mapLookup (SetRaw s k v).2.cacheMap k).map Entry.value = some v ∧
    (SetRaw s k v).2.mruCap = s.mruCap ∧
    (k ∉ (SetRaw s k v).2.mru ∨
      ∃ T, (SetRaw s k v).2.mru = k :: T ∧ k ∉ T) := by
  cases hm : mapLookup s.cacheMap k with
  | none =>
    have hknot : k ∉ s.mru := by
      intro hkm
      have hsi := stateIs_isSome s.cacheMap k 0 (hwf.2.2.1 k hkm)
      rw [hm] at hsi
      cases hsi
    by_cases hc : s.noOverflow = true ∧ s.mruCap ≤ s.mru.length
    · exfalso
      simp only [SetRaw, hm, if_pos hc] at hsucc
      exact Bool.false_ne_true hsucc
    · simp only [SetRaw, hm, if_neg hc]
      refine ⟨⟨?_, hwf.2.1, ?_, ?_⟩, ?_, trivial, Or.inr ⟨s.mru, rfl, hknot⟩⟩
      · exact List.nodup_cons.mpr ⟨hknot, hwf.1⟩
      · intro x hx
        rcases List.mem_cons.mp hx with hxk | hxr
        · subst hxk
          rw [stateIs_cons_self]
          rfl
        · have hxne : k ≠ x := fun hcon => hknot (hcon ▸ hxr)
          rw [stateIs_cons_ne _ _ _ _ _ hxne]
          exact hwf.2.2.1 x hxr
      · intro x hx
        have hxne : k ≠ x := by
          intro hcon
          subst hcon
          have hsi := stateIs_isSome s.cacheMap k 1 (hwf.2.2.2 k hx)
          rw [hm] at hsi
          cases hsi
        rw [stateIs_cons_ne _ _ _ _ _ hxne]
        exact hwf.2.2.2 x hx
      · show (mapLookup ((k, ⟨0, v, 0⟩) :: s.cacheMap) k).map Entry.value =
          some v
        rw [mapLookup, if_pos rfl]
        rfl
  | some e =>
    have hval : (mapLookup (mapAdjust s.cacheMap k
        (fun e => { e with value := v })) k).map Entry.value = some v := by
      rw [mapLookup_adjust_self, hm]
      rfl
    have htags : ∀ x t, stateIs (mapAdjust s.cacheMap k
        (fun e => { e with value := v })) x t = stateIs s.cacheMap x t :=
      fun x t => stateIs_adjust_pres s.cacheMap k x _ t (fun e => rfl)
    by_cases hst : e.state = 0
    · simp only [SetRaw, hm, if_pos hst]
      have hknot : k ∉ s.mru.erase k := hwf.1.not_mem_erase
      refine ⟨⟨?_, hwf.2.1, ?_, ?_⟩, hval, trivial,
        Or.inr ⟨s.mru.erase k, rfl, hknot⟩⟩
      · exact List.nodup_cons.mpr ⟨hknot, hwf.1.erase k⟩
      · intro x hx
        rw [htags x 0]
        rcases List.mem_cons.mp hx with hxk | hxr
        · subst hxk
          simp only [stateIs, hm]
          rw [hst]
          rfl
        · exact hwf.2.2.1 x (List.mem_of_mem_erase hxr)
      · intro x hx
        rw [htags x 1]
        exact hwf.2.2.2 x hx
    · simp only [SetRaw, hm, if_neg hst]
      have hknot : k ∉ s.mru := by
        intro hkm
        obtain ⟨e', he', hs'⟩ := stateIs_tag s.cacheMap k 0 (hwf.2.2.1 k hkm)
        rw [hm] at he'
        injection he' with he'
        exact hst (by rw [he']; exact hs')
      refine ⟨⟨hwf.1, hwf.2.1, ?_, ?_⟩, hval, trivial, Or.inl hknot⟩
      · intro x hx
        rw [htags x 0]
        exact hwf.2.2.1 x hx
      · intro x hx
        rw [htags x 1]
        exact hwf.2.2.2 x hx

theorem promoteEvict_look (s : Shard) (k : String) (hwf : WF s)
    (hcap : 1 ≤ s.mruCap)
    (hsafe : Safe s k (s.mru.length - s.mruCap)) :
    lookPres s (promoteEvict s) k := by
  by_cases h1 : ((s.mru.length : Int) - (s.mruCap : Int)) ≤ 0
  · simp only [promoteEvict, promoteEvictCore]
    rw [if_pos h1]
    rfl
  · simp only [promoteEvict, promoteEvictCore]
    rw [if_neg h1]
    generalize hov : ((s.mru.length : Int) - (s.mruCap : Int)).toNat = ov
    have hovpos : 1 ≤ ov := by omega
    have hoveq : ov = s.mru.length - s.mruCap := by omega
    have hlenpos : s.mruCap < s.mru.length := by omega
    by_cases h2 : s.mfuCap = 0
    · rw [if_pos h2]
      apply evictFromMRUTail_look
      rw [hoveq]
      exact hsafe
    · rw [if_neg h2]
      generalize hcands : (HighScores (scoreOf s) s.mru ov).reverse = cands
      have hcle : (↑cands : Multiset String) ≤ ↑s.mru := by
        rw [← hcands, Multiset.coe_reverse]
        exact highScores_le _ _ _ hovpos
      have hclen : cands.length = ov := by
        rw [← hcands, List.length_reverse, highScores_len _ _ _ hovpos]
        omega
      generalize hcanp : (if ov ≤ s.mfuCap - s.mfu.length then ov
        else s.mfuCap - s.mfu.length) = canP
      have hcanple : canP ≤ ov := by
        rw [← hcanp]
        split <;> omega
      have htklen : (cands.take canP).length = canP := by
        rw [List.length_take]
        omega
      have hsplitle : (↑(cands.take canP) : Multiset String) +
          ↑(cands.drop canP) ≤ ↑s.mru := by
        have he : (↑(cands.take canP) : Multiset String) +
            ↑(cands.drop canP) = ↑cands := by
          rw [Multiset.coe_add, List.take_append_drop]
        rw [he]
        exact hcle
      generalize hfp : freePromote s (cands.take canP) = fp
      obtain ⟨fwf, flen, fdrop, flook, fsafe⟩ :=
        freePromote_spec k (cands.take canP) s (↑(cands.drop canP)) hwf
          hsplitle
      rw [hfp] at fwf flen fdrop flook fsafe
      have hfple : fp.2 ≤ canP := by
        have hle := freePromote_le s (cands.take canP)
        rw [hfp] at hle
        omega
      by_cases h3 : fp.2 = ov
      · rw [if_pos h3]
        exact flook
      · rw [if_neg h3]
        have hrem : 1 ≤ ov - fp.2 := by omega
        generalize hbot : LowScores (scoreOf fp.1) fp.1.mfu (ov - fp.2) =
          bottom
        have hbotle : (↑bottom : Multiset String) ≤ ↑fp.1.mfu := by
          rw [← hbot]
          exact lowScores_le _ _ _ hrem
        have hdrople : (↑(cands.drop fp.2) : Multiset String) ≤
            ↑fp.1.mru := by
          have hdsplit : cands.drop fp.2 =
              (cands.take canP).drop fp.2 ++ cands.drop canP := by
            conv_lhs => rw [← List.take_append_drop canP cands]
            rw [List.drop_append_of_le_length (by omega)]
          rw [hdsplit, ← Multiset.coe_add]
          exact fdrop
        by_cases h4 : bottom.isEmpty ∨
            scoreOf fp.1 (cands.getD fp.2 "") ≤ scoreOf fp.1 (bottom.headD "")
        · rw [if_pos h4]
          split
          · refine lookPres_trans flook ?_
            apply evictFromMRUTail_look
            show Safe fp.1 k (ov - fp.2 - 0)
            have hs : Safe fp.1 k (ov - fp.2) := by
              apply fsafe
              have he : (ov - fp.2) + fp.2 = ov := by omega
              rw [he, hoveq]
              exact hsafe
            have he2 : ov - fp.2 - 0 = ov - fp.2 := by omega
            rw [he2]
            exact hs
          · exact flook
        · rw [if_neg h4]
          obtain ⟨lwf, llen, llook, lple, lcount, lsafe⟩ :=
            scorePromoteLoop_spec2 k (cands.drop fp.2) fp.1 bottom 0 fwf
              hdrople hbotle
          have hdroplen : (cands.drop fp.2).length = ov - fp.2 := by
            rw [List.length_drop]
            omega
          have hsple : (scorePromoteLoop fp.1 (cands.drop fp.2)
              bottom 0).2 ≤ ov - fp.2 := by
            omega
          split
          · refine lookPres_trans flook (lookPres_trans llook ?_)
            apply evictFromMRUTail_look
            apply lsafe
            · omega
            · have he : (ov - fp.2 - (scorePromoteLoop fp.1
                  (cands.drop fp.2) bottom 0).2) +
                  ((scorePromoteLoop fp.1 (cands.drop fp.2) bottom 0).2 - 0) =
                  ov - fp.2 := by omega
              rw [he]
              apply fsafe
              have he2 : (ov - fp.2) + fp.2 = ov := by omega
              rw [he2, hoveq]
              exact hsafe
          · exact lookPres_trans flook llook

/-- C7: a successful `Set(k, v)` on a well-formed shard with MRU capacity at
least 1, followed immediately by `Get(k)`, returns `v`.  The inline
promote-evict triggered by `Set` runs in between: the newly set key sits at
the MRU head, every tail eviction of that pass removes a key strictly
behind it (or the key has moved to the MFU, which tail eviction never
touches), and promotions and demotions only retag entries, so the key's
entry and stored value survive the pass. -/
theorem c7_set_get (s : Shard) (k : String) (v : GoVal)
    (hwf : WF s) (hcap : 1 ≤ s.mruCap)
    (hsucc : (Set s k v).1 = true) :
    (Get (Set s k v).2 k).1 = v := by
  have hraw : (SetRaw s k v).1 = true := by
    by_cases hr : (SetRaw s k v).1 = true
    · exact hr
    · exfalso
      simp only [Set] at hsucc
      rw [if_neg hr] at hsucc
      exact hr hsucc
  have hset2 : (Set s k v).2 = promoteEvict (SetRaw s k v).2 := by
    simp only [Set]
    rw [if_pos hraw]
  obtain ⟨hwf0, hval0, hcap0, hdec⟩ := setRaw_start s k v hwf hraw
  have hsafe0 : Safe (SetRaw s k v).2 k
      ((SetRaw s k v).2.mru.length - (SetRaw s k v).2.mruCap) := by
    rcases hdec with hout | ⟨T, hT, hkT⟩
    · exact Or.inl hout
    · refine Or.inr ⟨[], T, by rw [hT]; rfl, hkT, ?_⟩
      rw [hT]
      simp only [List.length_cons]
      rw [hcap0]
      omega
  have hlp := promoteEvict_look (SetRaw s k v).2 k hwf0
    (by rw [hcap0]; exact hcap) hsafe0
  have hlp' : (mapLookup (promoteEvict (SetRaw s k v).2).cacheMap k).map
      Entry.value = (mapLookup (SetRaw s k v).2.cacheMap k).map
        Entry.value := hlp
  have hfinal : (mapLookup (promoteEvict (SetRaw s k v).2).cacheMap k).map
      Entry.value = some v := hlp'.trans hval0
  rw [hset2]
  cases hm : mapLookup (promoteEvict (SetRaw s k v).2).cacheMap k with
  | none =>
    rw [hm] at hfinal
    simp at hfinal
  | some e =>
    rw [hm] at hfinal
    simp only [Option.map_some'] at hfinal
    injection hfinal with hfinal
    simp only [Get, hm]
    exact hfinal

unseal heapUp heapDown in
theorem c7_set_get_witness :
    WF (initShard 2 1 false 0) ∧ 1 ≤ (initShard 2 1 false 0).mruCap ∧
    (Set (initShard 2 1 false 0) "a" (some "v")).1 = true ∧
    (Get (Set (initShard 2 1 false 0) "a" (some "v")).2 "a").1 =
      some "v" := by
  have hw : WF (initShard 2 1 false 0) :=
    ⟨by decide, by decide, by decide, by decide⟩
  exact ⟨hw, by decide, by decide,
    c7_set_get (initShard 2 1 false 0) "a" (some "v") hw (by decide)
      (by decide)⟩

end Bicache
